import Mathlib

/-!
Verification of the TMS9900 assembly formatter core
(the per-line parser and renderer from src/extension.ts, together with the
document-formatting driver).  Strings are modelled as lists of characters;
JavaScript whitespace handling, `String.prototype` trimming, splitting on
whitespace runs, and the two comma-normalising regex replacements are
embedded as executable Lean functions.
-/

namespace TMS

/-- Strings are modelled as lists of characters. -/
abbrev Str := List Char

/-- The whitespace characters relevant to the formatter (ASCII subset of the
JavaScript `\s` class used by `trim`, `trimStart`, `trimEnd` and `split`). -/
def isWS (c : Char) : Bool :=
  c = ' ' || c = '\t' || c = '\n' || c = '\r' || c = '\x0b' || c = '\x0c'

/-- JavaScript `String.prototype.trimStart`. -/
def trimStart (s : Str) : Str := s.dropWhile isWS

/-- JavaScript `String.prototype.trimEnd`. -/
def trimEnd (s : Str) : Str := (s.reverse.dropWhile isWS).reverse

/-- JavaScript `String.prototype.trim`. -/
def trim (s : Str) : Str := trimEnd (trimStart s)

/-- JavaScript `String.prototype.padEnd` with the space character. -/
def padEnd (s : Str) (n : Nat) : Str := s ++ List.replicate (n - s.length) ' '

/-- ASCII uppercasing of one character (the effect of
`String.prototype.toUpperCase` on the characters that occur here). -/
def upChar (c : Char) : Char :=
  if c = 'a' then 'A' else if c = 'b' then 'B' else if c = 'c' then 'C'
  else if c = 'd' then 'D' else if c = 'e' then 'E' else if c = 'f' then 'F'
  else if c = 'g' then 'G' else if c = 'h' then 'H' else if c = 'i' then 'I'
  else if c = 'j' then 'J' else if c = 'k' then 'K' else if c = 'l' then 'L'
  else if c = 'm' then 'M' else if c = 'n' then 'N' else if c = 'o' then 'O'
  else if c = 'p' then 'P' else if c = 'q' then 'Q' else if c = 'r' then 'R'
  else if c = 's' then 'S' else if c = 't' then 'T' else if c = 'u' then 'U'
  else if c = 'v' then 'V' else if c = 'w' then 'W' else if c = 'x' then 'X'
  else if c = 'y' then 'Y' else if c = 'z' then 'Z' else c

/-- JavaScript `String.prototype.toUpperCase` (ASCII). -/
def upper (s : Str) : Str := s.map upChar

/-- Length bound for `dropWhile`, used in termination arguments. -/
theorem dropWhile_len_le (p : α → Bool) (l : List α) :
    (l.dropWhile p).length ≤ l.length :=
  (List.dropWhile_sublist p).length_le

/-- Splitting on runs of whitespace, as `split(/\s+/)` behaves on a string
with no leading whitespace; on fully trimmed input (the only way the source
uses it) it returns the whitespace-free tokens in order. -/
def splitWS (s : Str) : List Str :=
  match s with
  | [] => []
  | c :: cs =>
    if isWS c then splitWS cs
    else (c :: cs.takeWhile (fun d => !isWS d)) :: splitWS (cs.dropWhile (fun d => !isWS d))
termination_by s.length
decreasing_by
  all_goals simp_wf
  all_goals (have h := dropWhile_len_le (fun d => !isWS d) cs; omega)

/-- JavaScript `Array.prototype.join(' ')`. -/
def joinSp : List Str → Str
  | [] => []
  | [t] => t
  | t :: ts => t ++ ' ' :: joinSp ts

/-- The part of the line strictly before the first semicolon
(`line.substring(0, line.indexOf(';'))`, or the whole line if there is none). -/
def beforeSemi : Str → Str
  | [] => []
  | c :: cs => if c = ';' then [] else c :: beforeSemi cs

/-- The part of the line from the first semicolon on
(`line.substring(line.indexOf(';'))`); empty if there is no semicolon. -/
def fromSemi : Str → Str
  | [] => []
  | c :: cs => if c = ';' then c :: cs else fromSemi cs

/-- Whether the line contains a semicolon (`line.indexOf(';') >= 0`). -/
def hasSemi : Str → Bool
  | [] => false
  | c :: cs => c = ';' || hasSemi cs

/-- The TMS9900 instruction set (`INSTRUCTIONS` in src/extension.ts). -/
def INSTRUCTIONS : List Str :=
  ["A", "AB", "ABS", "AI", "ANDI", "B", "BL", "BLWP", "C", "CB", "CI", "CLR",
   "COC", "CZC", "DEC", "DECT", "DIV", "IDIV", "INC", "INCT", "INV",
   "JEQ", "JGT", "JHE", "JH", "JL", "JLE", "JLT", "JMP", "JNC", "JNE", "JNO",
   "JOC", "JOP",
   "LDCR", "LI", "LIMI", "LREX", "LWPI", "MOV", "MOVB", "MPY", "NEG", "ORI",
   "RTWP", "S", "SB", "SBO", "SBZ", "SETO", "SLA", "SRA", "SRC", "SRL",
   "STCR", "STST", "STWP", "SWPB", "SZC", "SZF", "TB", "X", "XOP",
   "XOR"].map String.data

/-- The assembler directives (`DIRECTIVES` in src/extension.ts). -/
def DIRECTIVES : List Str :=
  ["EQU", "DATA", "BYTE", "TEXT", "BSS", "BES", "ORG", "END", "AORG", "RORG",
   "DORG", "IDT", "DEF", "REF", "TITL", "PAGE", "LIST", "UNL", "BCOPY",
   "COPY", "SAVE"].map String.data

/-- The `ParsedLine` record of src/extension.ts. -/
structure ParsedLine where
  label : Str
  instruction : Str
  operands : Str
  comment : Str
deriving DecidableEq, Repr

/-- A `ParsedLine` with all four fields empty. -/
def emptyParsed : ParsedLine := ⟨[], [], [], []⟩

/-- The `FormatConfig` record of src/extension.ts. -/
structure FormatConfig where
  labelColumn : Nat
  instructionColumn : Nat
  operandColumn : Nat
  commentColumn : Nat
  uppercaseInstructions : Bool
  uppercaseDirectives : Bool
  spaceAfterComma : Bool
deriving DecidableEq, Repr

/-- The default configuration values from `getFormatConfig`. -/
def defaultConfig : FormatConfig :=
  { labelColumn := 0, instructionColumn := 9, operandColumn := 18,
    commentColumn := 40, uppercaseInstructions := true,
    uppercaseDirectives := true, spaceAfterComma := true }

/-- The classification of the parser's first token: member of `INSTRUCTIONS`
or of `DIRECTIVES` after uppercasing, or beginning with a dot
(`INSTRUCTIONS.has(firstToken) || DIRECTIVES.has(firstToken) ||
firstToken.startsWith(".")` on the uppercased token). -/
def isInstOrDirTok (t : Str) : Bool :=
  decide (upper t ∈ INSTRUCTIONS) || decide (upper t ∈ DIRECTIVES) ||
    decide ((upper t).head? = some '.')

/-- Token-list stage of `parseLine`: label detection, instruction, operands. -/
def parseTokens (toks : List Str) (comment : Str) : ParsedLine :=
  match toks with
  | [] => { emptyParsed with comment := comment }
  | t0 :: rest =>
    if isInstOrDirTok t0 then
      { label := [], instruction := t0, operands := joinSp rest, comment := comment }
    else
      match rest with
      | [] => { emptyParsed with label := t0, comment := comment }
      | t1 :: rest2 =>
        { label := t0, instruction := t1, operands := joinSp rest2, comment := comment }

/-- The inline comment extracted on the parser's code path
(`commentIndex >= 0 ? line.substring(commentIndex).trim() : ''`). -/
def lineComment (line : Str) : Str :=
  if hasSemi line then trim (fromSemi line) else []

/-- The `parseLine` function of src/extension.ts. -/
def parseLine (line : Str) : ParsedLine :=
  if (trimStart line).head? = some '*' ∨ (trimStart line).head? = some ';' then
    { emptyParsed with comment := trimStart line }
  else
    let codePart := trimEnd (beforeSemi line)
    if trim codePart = [] then
      { emptyParsed with comment := lineComment line }
    else
      parseTokens (splitWS (trim codePart)) (lineComment line)

/-- The regex replacement `replace(/,\s*/g, ', ')`. -/
def replStar (s : Str) : Str :=
  match s with
  | [] => []
  | c :: cs =>
    if c = ',' then ',' :: ' ' :: replStar (cs.dropWhile isWS) else c :: replStar cs
termination_by s.length
decreasing_by
  all_goals simp_wf
  all_goals (have h := dropWhile_len_le isWS cs; omega)

/-- The regex replacement `replace(/,\s+/g, ', ')`. -/
def replPlus (s : Str) : Str :=
  match s with
  | [] => []
  | [c] => [c]
  | c :: d :: cs =>
    if c = ',' ∧ isWS d then ',' :: ' ' :: replPlus ((d :: cs).dropWhile isWS)
    else c :: replPlus (d :: cs)
termination_by s.length
decreasing_by
  all_goals simp_wf
  all_goals (have h := dropWhile_len_le isWS (d :: cs); simp at h; omega)

/-- The `formatOperands` function of src/extension.ts. -/
def formatOperands (ops : Str) (cfg : FormatConfig) : Str :=
  if ops = [] then []
  else if cfg.spaceAfterComma then replPlus (replStar ops)
  else ops

/-- The label field of the rendered line (`formatLine` lines 148-158). -/
def labelField (label : Str) (cfg : FormatConfig) : Str :=
  if label ≠ [] then
    if cfg.instructionColumn ≤ label.length then label ++ [' ']
    else padEnd label cfg.instructionColumn
  else List.replicate cfg.instructionColumn ' '

/-- The casing decision for the instruction field (`formatLine` lines 161-170,
with the local `instUpper` inlined). -/
def caseInstruction (inst : Str) (cfg : FormatConfig) : Str :=
  if decide (upper inst ∈ INSTRUCTIONS) && cfg.uppercaseInstructions then upper inst
  else if decide (upper inst ∈ DIRECTIVES) && cfg.uppercaseDirectives then upper inst
  else inst

/-- The code portion of the rendered line: label field, instruction, operands
(`formatLine` lines 147-186; both arms of the instruction-appending `if`
execute the same `formatted += inst`). -/
def renderCode (p : ParsedLine) (cfg : FormatConfig) : Str :=
  let f1 := labelField p.label cfg
  let f2 := if p.instruction ≠ [] then f1 ++ caseInstruction p.instruction cfg else f1
  if p.operands ≠ [] then trimEnd f2 ++ ' ' :: formatOperands p.operands cfg else f2

/-- Comment placement on the rendered code portion (`formatLine` lines 188-197). -/
def placeComment (code : Str) (comment : Str) (cfg : FormatConfig) : Str :=
  if comment ≠ [] then
    if (trimEnd code).length < cfg.commentColumn then
      padEnd (trimEnd code) cfg.commentColumn ++ comment
    else trimEnd code ++ ' ' :: ' ' :: comment
  else code

/-- The `formatLine` function of src/extension.ts. -/
def formatLine (line : Str) (cfg : FormatConfig) : Str :=
  if trim line = [] then []
  else
    let p := parseLine line
    if p.comment ≠ [] ∧ p.label = [] ∧ p.instruction = [] ∧ p.operands = [] then
      if trimStart line = line then p.comment
      else padEnd [] cfg.commentColumn ++ p.comment
    else
      trimEnd (placeComment (renderCode p cfg) p.comment cfg)

/-- The loop body of `provideDocumentFormattingEdits`: the document is an
ordered list of lines, `i` the current line index, and the cancellation
token reads as requested once `cancelAfter` lines have been processed. -/
def runLoop (cfg : FormatConfig) (cancelAfter : Nat) : Nat → List Str → List (Nat × Str)
  | _, [] => []
  | i, l :: ls =>
    if cancelAfter ≤ i then []
    else
      let f := formatLine l cfg
      (if f ≠ l then [(i, f)] else []) ++ runLoop cfg cancelAfter (i + 1) ls

/-- `TMS9900FormattingProvider.provideDocumentFormattingEdits`: iterate over
all lines from index 0, stopping at the cancellation check, collecting an
edit for every line whose formatted text differs. -/
def provideDocumentFormattingEdits (doc : List Str) (cfg : FormatConfig)
    (cancelAfter : Nat) : List (Nat × Str) :=
  runLoop cfg cancelAfter 0 doc

/-- The edit a full uncancelled run contributes at line `i`, written from the
claim: an entry exactly when the formatted line differs from the original. -/
def editAt (doc : List Str) (cfg : FormatConfig) (i : Nat) : Option (Nat × Str) :=
  let l := doc.getD i []
  let f := formatLine l cfg
  if f = l then none else some (i, f)

/-- The edit list the claim describes for a run cancelled after `K` lines:
the `(index, replacement)` pairs for exactly the changed lines among
`[0, K)`, in increasing line order. -/
def expectedEdits (doc : List Str) (cfg : FormatConfig) (K : Nat) : List (Nat × Str) :=
  (List.range K).filterMap (editAt doc cfg)

/-- `replStar` restricted to a whitespace-free token: each comma becomes
comma-space. -/
def expand : Str → Str
  | [] => []
  | c :: cs => if c = ',' then ',' :: ' ' :: expand cs else c :: expand cs

/-- The comma-normalised rendering of a token list: tokens expanded and
joined by single spaces, where a token ending in a comma already supplies
the following space itself. -/
def joinStar : List Str → Str
  | [] => []
  | t :: ts =>
    expand t ++ if ts = [] then [] else
      (if t.getLast? = some ',' then [] else [' ']) ++ joinStar ts

/-- Cutting a whitespace-free token after each of its commas: the pieces a
comma-expanded token splits back into. -/
def splitTok : Str → List Str
  | [] => []
  | c :: cs =>
    if c = ',' then [c] :: splitTok cs
    else
      match splitTok cs with
      | [] => [[c]]
      | p :: ps => (c :: p) :: ps

/-- `splitTok` applied across a token list. -/
def splitAll : List Str → List Str
  | [] => []
  | t :: ts => splitTok t ++ splitAll ts

/-- Whether the string begins with a whitespace character. -/
def headWS : Str → Bool
  | [] => false
  | d :: _ => isWS d

/-- Structural-recursion computation form of `splitWS` (accumulator holds the
reversed current token); used for evaluating concrete inputs, proven equal to
`splitWS` below. -/
def splitWSA (acc : Str) : Str → List Str
  | [] => if acc.isEmpty then [] else [acc.reverse]
  | c :: cs =>
    if isWS c then
      if acc.isEmpty then splitWSA [] cs else acc.reverse :: splitWSA [] cs
    else splitWSA (c :: acc) cs

/-- Structural-recursion computation form of `replStar` (the flag records that
the scanner is inside the whitespace run after a comma); proven equal to
`replStar` below. -/
def replStarA (skipping : Bool) : Str → Str
  | [] => []
  | c :: cs =>
    if skipping && isWS c then replStarA true cs
    else if c = ',' then ',' :: ' ' :: replStarA true cs
    else c :: replStarA false cs

/-- Structural-recursion computation form of `replPlus`; proven equal to
`replPlus` below. -/
def replPlusA (skipping : Bool) : Str → Str
  | [] => []
  | c :: cs =>
    if skipping && isWS c then replPlusA true cs
    else if c = ',' && headWS cs then ',' :: ' ' :: replPlusA true cs
    else c :: replPlusA false cs

/-- Computation form of `parseLine`, using `splitWSA`. -/
def parseLineE (line : Str) : ParsedLine :=
  if (trimStart line).head? = some '*' ∨ (trimStart line).head? = some ';' then
    { emptyParsed with comment := trimStart line }
  else
    let codePart := trimEnd (beforeSemi line)
    if trim codePart = [] then
      { emptyParsed with comment := lineComment line }
    else
      parseTokens (splitWSA [] (trim codePart)) (lineComment line)

/-- Computation form of `formatOperands`, using `replStarA` and `replPlusA`. -/
def formatOperandsE (ops : Str) (cfg : FormatConfig) : Str :=
  if ops = [] then []
  else if cfg.spaceAfterComma then replPlusA false (replStarA false ops)
  else ops

/-- Computation form of `renderCode`, using `formatOperandsE`. -/
def renderCodeE (p : ParsedLine) (cfg : FormatConfig) : Str :=
  let f1 := labelField p.label cfg
  let f2 := if p.instruction ≠ [] then f1 ++ caseInstruction p.instruction cfg else f1
  if p.operands ≠ [] then trimEnd f2 ++ ' ' :: formatOperandsE p.operands cfg else f2

/-- Computation form of `formatLine`. -/
def formatLineE (line : Str) (cfg : FormatConfig) : Str :=
  if trim line = [] then []
  else
    let p := parseLineE line
    if p.comment ≠ [] ∧ p.label = [] ∧ p.instruction = [] ∧ p.operands = [] then
      if trimStart line = line then p.comment
      else padEnd [] cfg.commentColumn ++ p.comment
    else
      trimEnd (placeComment (renderCodeE p cfg) p.comment cfg)

end TMS

namespace TMS

/-! ### Character-level lemmas -/

theorem upChar_eq_of_nmem {c : Char} (h : c ∉ ("abcdefghijklmnopqrstuvwxyz").data) :
    upChar c = c := by
  simp only [String.data, List.mem_cons, List.not_mem_nil, or_false, not_or] at h
  obtain ⟨h1, h2, h3, h4, h5, h6, h7, h8, h9, h10, h11, h12, h13,
    h14, h15, h16, h17, h18, h19, h20, h21, h22, h23, h24, h25, h26⟩ := h
  unfold upChar
  rw [if_neg h1, if_neg h2, if_neg h3, if_neg h4, if_neg h5, if_neg h6,
    if_neg h7, if_neg h8, if_neg h9, if_neg h10, if_neg h11, if_neg h12,
    if_neg h13, if_neg h14, if_neg h15, if_neg h16, if_neg h17, if_neg h18,
    if_neg h19, if_neg h20, if_neg h21, if_neg h22, if_neg h23, if_neg h24,
    if_neg h25, if_neg h26]

theorem upChar_upChar (c : Char) : upChar (upChar c) = upChar c := by
  by_cases h : c ∈ ("abcdefghijklmnopqrstuvwxyz").data
  · fin_cases h <;> decide
  · rw [upChar_eq_of_nmem h, upChar_eq_of_nmem h]

theorem upper_upper (s : Str) : upper (upper s) = upper s := by
  simp [upper, List.map_map, Function.comp_def, upChar_upChar]

theorem isWS_upChar (c : Char) : isWS (upChar c) = isWS c := by
  by_cases h : c ∈ ("abcdefghijklmnopqrstuvwxyz").data
  · fin_cases h <;> decide
  · rw [upChar_eq_of_nmem h]

theorem upChar_eq_special {c d : Char} (hd : d ∈ ([';', '*', '.', ','] : List Char)) :
    upChar c = d ↔ c = d := by
  constructor
  · intro h
    by_cases hm : c ∈ ("abcdefghijklmnopqrstuvwxyz").data
    · exfalso
      fin_cases hd <;> fin_cases hm <;> exact absurd h (by decide)
    · rwa [upChar_eq_of_nmem hm] at h
  · intro h
    subst h
    fin_cases hd <;> rfl

theorem head?_upper (s : Str) : (upper s).head? = s.head?.map upChar := by
  cases s <;> simp [upper]

/-! ### Trimming lemmas -/

theorem trimStart_cons_ws {c : Char} (h : isWS c) (s : Str) :
    trimStart (c :: s) = trimStart s := by
  simp [trimStart, List.dropWhile_cons, h]

theorem trimStart_cons_nonws {c : Char} (h : ¬ isWS c) (s : Str) :
    trimStart (c :: s) = c :: s := by
  simp [trimStart, List.dropWhile_cons, h]

theorem trimStart_replicate_append (n : Nat) (s : Str) :
    trimStart (List.replicate n ' ' ++ s) = trimStart s := by
  induction n with
  | zero => simp
  | succ n ih =>
    rw [List.replicate_succ, List.cons_append, trimStart_cons_ws (by decide)]
    exact ih

theorem trimStart_length_le (s : Str) : (trimStart s).length ≤ s.length :=
  dropWhile_len_le isWS s

theorem trimEnd_append (a b : Str) :
    trimEnd (a ++ b) = if trimEnd b = [] then trimEnd a else a ++ trimEnd b := by
  unfold trimEnd
  rw [List.reverse_append, List.dropWhile_append]
  by_cases h : (List.dropWhile isWS b.reverse).isEmpty
  · rw [if_pos h]
    rw [List.isEmpty_iff] at h
    rw [if_pos (by simp [h])]
  · rw [if_neg h]
    rw [List.isEmpty_iff] at h
    rw [if_neg (by simp [h]), List.reverse_append, List.reverse_reverse]

theorem trimEnd_idem (s : Str) : trimEnd (trimEnd s) = trimEnd s := by
  unfold trimEnd
  rw [List.reverse_reverse, List.dropWhile_idempotent]

theorem trimEnd_nonws {t : Str} (h : ∀ c ∈ t, ¬ isWS c) : trimEnd t = t := by
  unfold trimEnd
  have : List.dropWhile isWS t.reverse = t.reverse := by
    cases hr : t.reverse with
    | nil => simp
    | cons c cs =>
      rw [List.dropWhile_cons, if_neg]
      have hc : c ∈ t := by
        rw [← List.mem_reverse, hr]
        exact List.mem_cons_self c cs
      simpa using h c hc
  rw [this, List.reverse_reverse]

theorem trimEnd_replicate (n : Nat) : trimEnd (List.replicate n ' ') = [] := by
  unfold trimEnd
  rw [List.reverse_replicate, List.dropWhile_eq_nil_iff.mpr, List.reverse_nil]
  intro x hx
  rw [List.eq_of_mem_replicate hx]
  rfl

theorem trimEnd_padEnd (s : Str) (n : Nat) : trimEnd (padEnd s n) = trimEnd s := by
  unfold padEnd
  rw [trimEnd_append, if_pos (trimEnd_replicate _)]

theorem trimEnd_append_ws {a w : Str} (h : ∀ c ∈ w, isWS c) :
    trimEnd (a ++ w) = trimEnd a := by
  rw [trimEnd_append, if_pos]
  unfold trimEnd
  rw [List.dropWhile_eq_nil_iff.mpr, List.reverse_nil]
  intro x hx
  exact h x (List.mem_reverse.mp hx)

theorem trimEnd_append_nonws {a b : Str} (hb : trimEnd b ≠ []) :
    trimEnd (a ++ b) = a ++ trimEnd b := by
  rw [trimEnd_append, if_neg hb]

theorem trimEnd_eq_nil_iff (s : Str) : trimEnd s = [] ↔ ∀ c ∈ s, isWS c := by
  unfold trimEnd
  rw [List.reverse_eq_nil_iff, List.dropWhile_eq_nil_iff]
  constructor <;> intro h c hc
  · exact h c (List.mem_reverse.mpr hc)
  · exact h c (List.mem_reverse.mp hc)

theorem trim_eq_nil_iff (s : Str) : trim s = [] ↔ ∀ c ∈ s, isWS c := by
  unfold trim
  rw [trimEnd_eq_nil_iff]
  constructor <;> intro h c hc
  · rcases List.mem_append.mp ((List.takeWhile_append_dropWhile isWS s) ▸ hc) with h1 | h1
    · exact List.mem_takeWhile_imp h1
    · exact h c h1
  · exact h c ((List.dropWhile_sublist isWS).subset hc)

theorem padEnd_length (s : Str) (n : Nat) : (padEnd s n).length = max s.length n := by
  simp [padEnd]
  omega

/-! ### splitWS and joinSp lemmas -/

theorem splitWS_nil : splitWS [] = [] := by
  rw [splitWS]

theorem splitWS_cons_ws {c : Char} (h : isWS c) (s : Str) :
    splitWS (c :: s) = splitWS s := by
  rw [splitWS, if_pos h]

theorem splitWS_cons_nonws {c : Char} (h : ¬ isWS c) (s : Str) :
    splitWS (c :: s) =
      (c :: s.takeWhile (fun d => !isWS d)) :: splitWS (s.dropWhile (fun d => !isWS d)) := by
  rw [splitWS, if_neg h]

theorem splitWS_ws_append {w : Str} (h : ∀ c ∈ w, isWS c) (s : Str) :
    splitWS (w ++ s) = splitWS s := by
  induction w with
  | nil => rfl
  | cons c cs ih =>
    rw [List.cons_append, splitWS_cons_ws (h c (List.mem_cons_self c cs))]
    exact ih fun d hd => h d (List.mem_cons_of_mem c hd)

theorem splitWS_allWS {w : Str} (h : ∀ c ∈ w, isWS c) : splitWS w = [] := by
  have h2 := splitWS_ws_append h []
  rw [List.append_nil, splitWS_nil] at h2
  exact h2

theorem takeWhile_append_all {p : Char → Bool} {t : Str} (h : ∀ c ∈ t, p c) (s : Str) :
    List.takeWhile p (t ++ s) = t ++ List.takeWhile p s := by
  induction t with
  | nil => rfl
  | cons c cs ih =>
    rw [List.cons_append, List.takeWhile_cons, if_pos (h c (List.mem_cons_self c cs)),
      ih fun d hd => h d (List.mem_cons_of_mem c hd), List.cons_append]

theorem dropWhile_append_all {p : Char → Bool} {t : Str} (h : ∀ c ∈ t, p c) (s : Str) :
    List.dropWhile p (t ++ s) = List.dropWhile p s := by
  induction t with
  | nil => rfl
  | cons c cs ih =>
    rw [List.cons_append, List.dropWhile_cons, if_pos (h c (List.mem_cons_self c cs))]
    exact ih fun d hd => h d (List.mem_cons_of_mem c hd)

theorem splitWS_tok_append {t : Str} (ht : t ≠ []) (hw : ∀ c ∈ t, ¬ isWS c) (s : Str) :
    splitWS (t ++ s) =
      (t ++ s.takeWhile (fun d => !isWS d)) :: splitWS (s.dropWhile (fun d => !isWS d)) := by
  cases t with
  | nil => exact absurd rfl ht
  | cons c cs =>
    have hcs : ∀ d ∈ cs, (fun d => !isWS d) d = true := by
      intro d hd
      simpa using hw d (List.mem_cons_of_mem c hd)
    rw [List.cons_append, splitWS_cons_nonws (hw c (List.mem_cons_self c cs)),
      takeWhile_append_all hcs, dropWhile_append_all hcs, List.cons_append]

theorem splitWS_tok_nil {t : Str} (ht : t ≠ []) (hw : ∀ c ∈ t, ¬ isWS c) :
    splitWS t = [t] := by
  have h2 := splitWS_tok_append ht hw []
  simpa [splitWS_nil] using h2

theorem splitWS_tok_space {t : Str} (ht : t ≠ []) (hw : ∀ c ∈ t, ¬ isWS c) (s : Str) :
    splitWS (t ++ ' ' :: s) = t :: splitWS s := by
  rw [splitWS_tok_append ht hw]
  have h1 : List.takeWhile (fun d => !isWS d) (' ' :: s) = [] := by
    rw [List.takeWhile_cons, if_neg (by decide)]
  have h2 : List.dropWhile (fun d => !isWS d) (' ' :: s) = ' ' :: s := by
    rw [List.dropWhile_cons, if_neg (by decide)]
  rw [h1, h2, List.append_nil, splitWS_cons_ws (by decide)]

theorem splitWS_joinSp {toks : List Str}
    (h : ∀ t ∈ toks, t ≠ [] ∧ ∀ c ∈ t, ¬ isWS c) :
    splitWS (joinSp toks) = toks := by
  induction toks with
  | nil => exact splitWS_nil
  | cons t ts ih =>
    cases ts with
    | nil =>
      exact splitWS_tok_nil (h t (List.mem_cons_self t [])).1 (h t (List.mem_cons_self t [])).2
    | cons t2 ts2 =>
      rw [show joinSp (t :: t2 :: ts2) = t ++ ' ' :: joinSp (t2 :: ts2) from rfl,
        splitWS_tok_space (h t (List.mem_cons_self t _)).1 (h t (List.mem_cons_self t _)).2,
        ih fun u hu => h u (List.mem_cons_of_mem t hu)]

theorem splitWS_facts {s : Str} :
    ∀ t ∈ splitWS s, t ≠ [] ∧ (∀ c ∈ t, ¬ isWS c) ∧ ∀ c ∈ t, c ∈ s := by
  induction s using splitWS.induct with
  | case1 => intro t ht; exact absurd ht (by simp [splitWS])
  | case2 c cs h ih =>
    rw [splitWS_cons_ws h]
    intro t ht
    obtain ⟨h1, h2, h3⟩ := ih t ht
    exact ⟨h1, h2, fun d hd => List.mem_cons_of_mem c (h3 d hd)⟩
  | case3 c cs h ih =>
    rw [splitWS_cons_nonws h]
    intro t ht
    rcases List.mem_cons.mp ht with rfl | ht2
    · refine ⟨by simp, ?_, ?_⟩
      · intro d hd
        rcases List.mem_cons.mp hd with rfl | hd2
        · exact h
        · simpa using List.mem_takeWhile_imp hd2
      · intro d hd
        rcases List.mem_cons.mp hd with rfl | hd2
        · exact List.mem_cons_self d cs
        · exact List.mem_cons_of_mem c ((List.takeWhile_sublist _).subset hd2)
    · obtain ⟨h1, h2, h3⟩ := ih t ht2
      exact ⟨h1, h2, fun d hd =>
        List.mem_cons_of_mem c ((List.dropWhile_sublist _).subset (h3 d hd))⟩

theorem joinSp_mem {toks : List Str} {c : Char} (hc : c ∈ joinSp toks) :
    c = ' ' ∨ ∃ t ∈ toks, c ∈ t := by
  induction toks with
  | nil => exact absurd hc (by simp [joinSp])
  | cons t ts ih =>
    cases ts with
    | nil => exact Or.inr ⟨t, List.mem_cons_self t [], hc⟩
    | cons t2 ts2 =>
      rw [show joinSp (t :: t2 :: ts2) = t ++ ' ' :: joinSp (t2 :: ts2) from rfl] at hc
      rcases List.mem_append.mp hc with h1 | h1
      · exact Or.inr ⟨t, List.mem_cons_self t _, h1⟩
      · rcases List.mem_cons.mp h1 with rfl | h2
        · exact Or.inl rfl
        · rcases ih h2 with h3 | ⟨u, hu, hcu⟩
          · exact Or.inl h3
          · exact Or.inr ⟨u, List.mem_cons_of_mem t hu, hcu⟩

theorem joinSp_eq_nil_iff {toks : List Str} (h : ∀ t ∈ toks, t ≠ []) :
    joinSp toks = [] ↔ toks = [] := by
  cases toks with
  | nil => simp [joinSp]
  | cons t ts =>
    cases ts with
    | nil =>
      simp only [joinSp]
      simpa using h t (List.mem_cons_self t [])
    | cons t2 ts2 =>
      simp only [joinSp]
      constructor
      · intro hn
        exact absurd hn (by simp [h t (List.mem_cons_self t _)])
      · intro hn
        exact absurd hn (by simp)

/-! ### Semicolon-splitting lemmas -/

theorem beforeSemi_not_mem (s : Str) : ';' ∉ beforeSemi s := by
  induction s with
  | nil => simp [beforeSemi]
  | cons c cs ih =>
    rw [beforeSemi]
    split_ifs with h
    · simp
    · intro hmem
      rcases List.mem_cons.mp hmem with h2 | h2
      · exact h h2.symm
      · exact ih h2

theorem beforeSemi_subset {s : Str} {c : Char} (h : c ∈ beforeSemi s) : c ∈ s := by
  induction s with
  | nil => exact absurd h (by simp [beforeSemi])
  | cons d ds ih =>
    rw [beforeSemi] at h
    split_ifs at h with hd
    · exact absurd h (by simp)
    · rcases List.mem_cons.mp h with rfl | h2
      · exact List.mem_cons_self c ds
      · exact List.mem_cons_of_mem d (ih h2)

theorem fromSemi_of_hasSemi {s : Str} (h : hasSemi s = true) :
    ∃ u, fromSemi s = ';' :: u := by
  induction s with
  | nil => simp [hasSemi] at h
  | cons c cs ih =>
    rw [hasSemi] at h
    rw [fromSemi]
    split_ifs with hc
    · exact ⟨cs, by rw [hc]⟩
    · rcases Bool.or_eq_true_iff.mp h with h1 | h1
      · exact absurd (by simpa using h1) hc
      · exact ih h1

theorem hasSemi_of_mem {s : Str} (h : ';' ∈ s) : hasSemi s = true := by
  induction s with
  | nil => exact absurd h (by simp)
  | cons c cs ih =>
    rw [hasSemi]
    rcases List.mem_cons.mp h with rfl | h2
    · simp
    · rw [ih h2, Bool.or_true]

theorem not_hasSemi_of_not_mem {s : Str} (h : ';' ∉ s) : hasSemi s = false := by
  cases hs : hasSemi s
  · rfl
  · exfalso
    apply h
    induction s with
    | nil => simp [hasSemi] at hs
    | cons c cs ih =>
      rw [hasSemi] at hs
      rcases Bool.or_eq_true_iff.mp hs with h1 | h1
      · rw [show c = ';' from by simpa using h1]
        exact List.mem_cons_self _ _
      · exact List.mem_cons_of_mem c (ih (fun hm => h (List.mem_cons_of_mem c hm)) h1)

theorem beforeSemi_append_no {a : Str} (ha : ';' ∉ a) (b : Str) :
    beforeSemi (a ++ b) = a ++ beforeSemi b := by
  induction a with
  | nil => rfl
  | cons c cs ih =>
    rw [List.cons_append, beforeSemi,
      if_neg (fun hc => ha (by rw [hc]; exact List.mem_cons_self _ _)),
      ih fun hm => ha (List.mem_cons_of_mem c hm), List.cons_append]

theorem fromSemi_append_no {a : Str} (ha : ';' ∉ a) (b : Str) :
    fromSemi (a ++ b) = fromSemi b := by
  induction a with
  | nil => rfl
  | cons c cs ih =>
    rw [List.cons_append, fromSemi,
      if_neg (fun hc => ha (by rw [hc]; exact List.mem_cons_self _ _))]
    exact ih fun hm => ha (List.mem_cons_of_mem c hm)

theorem hasSemi_append_no {a : Str} (ha : ';' ∉ a) (b : Str) :
    hasSemi (a ++ b) = hasSemi b := by
  induction a with
  | nil => rfl
  | cons c cs ih =>
    have hc : decide (c = ';') = false :=
      decide_eq_false fun h => ha (by rw [h]; exact List.mem_cons_self _ _)
    rw [List.cons_append, hasSemi, ih fun hm => ha (List.mem_cons_of_mem c hm), hc,
      Bool.false_or]

/-! ### Comma-normalisation lemmas -/

theorem replStar_nil : replStar [] = [] := by
  rw [replStar]

theorem replStar_comma (cs : Str) :
    replStar (',' :: cs) = ',' :: ' ' :: replStar (cs.dropWhile isWS) := by
  rw [replStar, if_pos rfl]

theorem replStar_cons {c : Char} (h : ¬ c = ',') (cs : Str) :
    replStar (c :: cs) = c :: replStar cs := by
  rw [replStar, if_neg h]

theorem dropWhile_ws_head {c : Char} (h : ¬ isWS c) (u : Str) :
    (c :: u).dropWhile isWS = c :: u := by
  rw [List.dropWhile_cons, if_neg (by simpa using h)]

theorem dropWhile_ws_head_not {x : Str} {c : Char}
    (h : (x.dropWhile isWS).head? = some c) : ¬ isWS c := by
  induction x with
  | nil => simp at h
  | cons d ds ih =>
    rw [List.dropWhile_cons] at h
    split_ifs at h with hd
    · exact ih h
    · simp only [List.head?_cons, Option.some.injEq] at h
      rw [← h]
      simpa using hd

theorem dropWhile_ws_of_head {x : Str}
    (h : ∀ c, x.head? = some c → ¬ isWS c) : x.dropWhile isWS = x := by
  cases x with
  | nil => rfl
  | cons c cs => exact dropWhile_ws_head (h c rfl) cs

theorem replStar_head? (s : Str) : (replStar s).head? = s.head? := by
  cases s with
  | nil => rw [replStar_nil]
  | cons c cs =>
    by_cases h : c = ','
    · subst h
      rw [replStar_comma]
      rfl
    · rw [replStar_cons h]
      rfl

theorem replPlus_replStar (s : Str) : replPlus (replStar s) = replStar s := by
  induction s using replStar.induct with
  | case1 =>
    rw [replStar_nil, replPlus]
  | case2 cs ih =>
    rw [replStar_comma]
    have hT : (replStar (cs.dropWhile isWS)).dropWhile isWS
        = replStar (cs.dropWhile isWS) := by
      apply dropWhile_ws_of_head
      intro c hc
      rw [replStar_head?] at hc
      exact dropWhile_ws_head_not hc
    rw [replPlus, if_pos ⟨rfl, by decide⟩, List.dropWhile_cons, if_pos (by decide), hT, ih]
  | case3 c cs h ih =>
    rw [replStar_cons h]
    cases hU : replStar cs with
    | nil =>
      rw [replPlus]
    | cons d ds =>
      rw [replPlus, if_neg (fun hh => h hh.1), ← hU, ih]

theorem expand_nil : expand [] = [] := rfl

theorem expand_comma (cs : Str) : expand (',' :: cs) = ',' :: ' ' :: expand cs := by
  rw [expand, if_pos rfl]

theorem expand_cons {c : Char} (h : ¬ c = ',') (cs : Str) :
    expand (c :: cs) = c :: expand cs := by
  rw [expand, if_neg h]

theorem expand_head? (t : Str) : (expand t).head? = t.head? := by
  cases t with
  | nil => rfl
  | cons c cs =>
    by_cases h : c = ','
    · subst h
      rw [expand_comma]
      rfl
    · rw [expand_cons h]
      rfl

theorem expand_ne_nil {t : Str} (h : t ≠ []) : expand t ≠ [] := by
  cases t with
  | nil => exact absurd rfl h
  | cons c cs =>
    by_cases hc : c = ','
    · subst hc
      rw [expand_comma]
      simp
    · rw [expand_cons hc]
      simp

theorem replStar_eq_expand {t : Str} (hw : ∀ c ∈ t, ¬ isWS c) :
    replStar t = expand t := by
  induction t with
  | nil => rw [replStar_nil, expand_nil]
  | cons c cs ih =>
    by_cases h : c = ','
    · subst h
      rw [replStar_comma, expand_comma]
      have hcs : cs.dropWhile isWS = cs := by
        apply dropWhile_ws_of_head
        intro d hd
        cases cs with
        | nil => simp at hd
        | cons e es =>
          simp only [List.head?_cons, Option.some.injEq] at hd
          rw [← hd]
          exact hw e (List.mem_cons_of_mem _ (List.mem_cons_self e es))
      rw [hcs, ih fun d hd => hw d (List.mem_cons_of_mem _ hd)]
    · rw [replStar_cons h, expand_cons h, ih fun d hd => hw d (List.mem_cons_of_mem c hd)]

theorem replStar_tok_space {t : Str} (ht : t ≠ []) (hw : ∀ c ∈ t, ¬ isWS c) {s : Str}
    (hs : s.dropWhile isWS = s) :
    replStar (t ++ ' ' :: s) =
      expand t ++ if t.getLast? = some ',' then replStar s else ' ' :: replStar s := by
  induction t with
  | nil => exact absurd rfl ht
  | cons c cs ih =>
    cases cs with
    | nil =>
      by_cases h : c = ','
      · subst h
        rw [List.cons_append, List.nil_append, replStar_comma, List.dropWhile_cons,
          if_pos (by decide), hs, expand_comma, expand_nil]
        rfl
      · rw [List.cons_append, List.nil_append, replStar_cons h,
          replStar_cons (by decide), expand_cons h, expand_nil,
          if_neg (by simp [h])]
        rfl
    | cons d ds =>
      have hd : ¬ isWS d := hw d (List.mem_cons_of_mem c (List.mem_cons_self d ds))
      have ih2 := ih (by simp) fun e he => hw e (List.mem_cons_of_mem c he)
      have hlast : (c :: d :: ds).getLast? = (d :: ds).getLast? :=
        List.getLast?_cons_cons
      by_cases h : c = ','
      · subst h
        rw [List.cons_append, replStar_comma, List.cons_append, dropWhile_ws_head hd,
          ← List.cons_append, ih2, expand_comma, hlast]
        rfl
      · rw [List.cons_append, replStar_cons h, ih2, expand_cons h, hlast]
        rfl

theorem joinStar_nil : joinStar [] = [] := rfl

theorem joinStar_single (t : Str) : joinStar [t] = expand t := by
  rw [joinStar]
  simp

theorem joinStar_cons (t : Str) {ts : List Str} (h : ts ≠ []) :
    joinStar (t :: ts) =
      expand t ++ if t.getLast? = some ',' then joinStar ts else ' ' :: joinStar ts := by
  rw [joinStar, if_neg h]
  split_ifs <;> rfl

theorem joinSp_head_nonws {t2 : Str} {ts2 : List Str}
    (h : ∀ t ∈ t2 :: ts2, t ≠ [] ∧ ∀ c ∈ t, ¬ isWS c) :
    (joinSp (t2 :: ts2)).dropWhile isWS = joinSp (t2 :: ts2) := by
  obtain ⟨hne, hw⟩ := h t2 (List.mem_cons_self t2 ts2)
  cases t2 with
  | nil => exact absurd rfl hne
  | cons c cs =>
    have hc : ¬ isWS c := hw c (List.mem_cons_self c cs)
    cases ts2 with
    | nil => exact dropWhile_ws_head hc cs
    | cons u us =>
      rw [show joinSp ((c :: cs) :: u :: us) = (c :: cs) ++ ' ' :: joinSp (u :: us) from rfl,
        List.cons_append]
      exact dropWhile_ws_head hc _

theorem replStar_joinSp {toks : List Str}
    (h : ∀ t ∈ toks, t ≠ [] ∧ ∀ c ∈ t, ¬ isWS c) :
    replStar (joinSp toks) = joinStar toks := by
  induction toks with
  | nil => rw [show joinSp [] = [] from rfl, replStar_nil, joinStar_nil]
  | cons t ts ih =>
    cases ts with
    | nil =>
      rw [show joinSp [t] = t from rfl, joinStar_single]
      exact replStar_eq_expand (h t (List.mem_cons_self t [])).2
    | cons t2 ts2 =>
      have hrest : ∀ u ∈ t2 :: ts2, u ≠ [] ∧ ∀ c ∈ u, ¬ isWS c :=
        fun u hu => h u (List.mem_cons_of_mem t hu)
      rw [show joinSp (t :: t2 :: ts2) = t ++ ' ' :: joinSp (t2 :: ts2) from rfl,
        replStar_tok_space (h t (List.mem_cons_self t _)).1
          (h t (List.mem_cons_self t _)).2 (joinSp_head_nonws hrest),
        ih hrest, joinStar_cons t (by simp)]

/-! ### splitTok lemmas -/

theorem splitTok_nil : splitTok [] = [] := rfl

theorem splitTok_comma (cs : Str) : splitTok (',' :: cs) = [','] :: splitTok cs := by
  rw [splitTok, if_pos rfl]

theorem splitTok_cons_nil {c : Char} (h : ¬ c = ',') {cs : Str}
    (hcs : splitTok cs = []) : splitTok (c :: cs) = [[c]] := by
  rw [splitTok, if_neg h, hcs]

theorem splitTok_cons_cons {c : Char} (h : ¬ c = ',') {cs : Str} {p : Str} {ps : List Str}
    (hcs : splitTok cs = p :: ps) : splitTok (c :: cs) = (c :: p) :: ps := by
  rw [splitTok, if_neg h, hcs]

theorem splitTok_ne_nil {t : Str} (h : t ≠ []) : splitTok t ≠ [] := by
  cases t with
  | nil => exact absurd rfl h
  | cons c cs =>
    by_cases hc : c = ','
    · subst hc
      rw [splitTok_comma]
      simp
    · cases hcs : splitTok cs with
      | nil => rw [splitTok_cons_nil hc hcs]; simp
      | cons p ps => rw [splitTok_cons_cons hc hcs]; simp

theorem splitTok_sub {t : Str} : ∀ p ∈ splitTok t, p ≠ [] ∧ ∀ c ∈ p, c ∈ t := by
  induction t with
  | nil => simp [splitTok_nil]
  | cons c cs ih =>
    by_cases hc : c = ','
    · subst hc
      rw [splitTok_comma]
      intro p hp
      rcases List.mem_cons.mp hp with rfl | hp2
      · exact ⟨by simp, by simp⟩
      · obtain ⟨h1, h2⟩ := ih p hp2
        exact ⟨h1, fun d hd => List.mem_cons_of_mem _ (h2 d hd)⟩
    · cases hcs : splitTok cs with
      | nil =>
        rw [splitTok_cons_nil hc hcs]
        intro p hp
        rcases List.mem_cons.mp hp with rfl | hp2
        · exact ⟨by simp, by simp⟩
        · exact absurd hp2 (by simp)
      | cons p0 ps =>
        rw [splitTok_cons_cons hc hcs]
        intro p hp
        rcases List.mem_cons.mp hp with rfl | hp2
        · refine ⟨by simp, ?_⟩
          intro d hd
          rcases List.mem_cons.mp hd with rfl | hd2
          · exact List.mem_cons_self d cs
          · obtain ⟨h1, h2⟩ := ih p0 (hcs ▸ List.mem_cons_self p0 ps)
            exact List.mem_cons_of_mem c (h2 d hd2)
        · obtain ⟨h1, h2⟩ := ih p (hcs ▸ List.mem_cons_of_mem p0 hp2)
          exact ⟨h1, fun d hd => List.mem_cons_of_mem c (h2 d hd)⟩

theorem splitAll_nil : splitAll [] = [] := rfl

theorem splitAll_ne_nil {toks : List Str} (htoks : toks ≠ [])
    (h : ∀ t ∈ toks, t ≠ []) : splitAll toks ≠ [] := by
  cases toks with
  | nil => exact absurd rfl htoks
  | cons t ts =>
    rw [show splitAll (t :: ts) = splitTok t ++ splitAll ts from rfl]
    intro hap
    rcases List.append_eq_nil.mp hap with ⟨h1, _⟩
    exact splitTok_ne_nil (h t (List.mem_cons_self t ts)) h1

theorem splitAll_facts {toks : List Str}
    (h : ∀ t ∈ toks, t ≠ [] ∧ ∀ c ∈ t, ¬ isWS c) :
    ∀ p ∈ splitAll toks, p ≠ [] ∧ ∀ c ∈ p, ¬ isWS c := by
  induction toks with
  | nil => simp [splitAll_nil]
  | cons t ts ih =>
    rw [show splitAll (t :: ts) = splitTok t ++ splitAll ts from rfl]
    intro p hp
    rcases List.mem_append.mp hp with h1 | h1
    · obtain ⟨hne, hsub⟩ := splitTok_sub p h1
      exact ⟨hne, fun c hc =>
        (h t (List.mem_cons_self t ts)).2 c (hsub c hc)⟩
    · exact ih (fun u hu => h u (List.mem_cons_of_mem t hu)) p h1

theorem splitAll_sub {toks : List Str} :
    ∀ p ∈ splitAll toks, ∀ c ∈ p, ∃ t ∈ toks, c ∈ t := by
  induction toks with
  | nil => simp [splitAll_nil]
  | cons t ts ih =>
    rw [show splitAll (t :: ts) = splitTok t ++ splitAll ts from rfl]
    intro p hp c hc
    rcases List.mem_append.mp hp with h1 | h1
    · exact ⟨t, List.mem_cons_self t ts, (splitTok_sub p h1).2 c hc⟩
    · obtain ⟨u, hu, hcu⟩ := ih p h1 c hc
      exact ⟨u, List.mem_cons_of_mem t hu, hcu⟩

/-! ### joinStar round-trip lemmas -/

theorem joinStar_cons_head {c : Char} (hc : ¬ c = ',') {u : Str} (hu : u ≠ [])
    (L : List Str) : joinStar ((c :: u) :: L) = c :: joinStar (u :: L) := by
  have hlast : (c :: u).getLast? = u.getLast? := by
    cases u with
    | nil => exact absurd rfl hu
    | cons e es => exact List.getLast?_cons_cons
  cases L with
  | nil => rw [joinStar_single, joinStar_single, expand_cons hc]
  | cons M Ms =>
    rw [joinStar_cons (c :: u) (show M :: Ms ≠ [] by simp),
      joinStar_cons u (show M :: Ms ≠ [] by simp), expand_cons hc, hlast,
      List.cons_append]

theorem joinStar_comma_head {u : Str} (hu : u ≠ []) (L : List Str) :
    joinStar ((',' :: u) :: L) = ',' :: ' ' :: joinStar (u :: L) := by
  have hlast : (',' :: u).getLast? = u.getLast? := by
    cases u with
    | nil => exact absurd rfl hu
    | cons e es => exact List.getLast?_cons_cons
  cases L with
  | nil => rw [joinStar_single, joinStar_single, expand_comma]
  | cons M Ms =>
    rw [joinStar_cons (',' :: u) (show M :: Ms ≠ [] by simp),
      joinStar_cons u (show M :: Ms ≠ [] by simp), expand_comma, hlast,
      List.cons_append, List.cons_append]

theorem joinStar_splitTok_append {t : Str} (ht : t ≠ []) (rest : List Str) :
    joinStar (splitTok t ++ rest) = joinStar (t :: rest) := by
  induction t with
  | nil => exact absurd rfl ht
  | cons c t2 ih =>
    cases t2 with
    | nil =>
      by_cases hc : c = ','
      · subst hc
        rw [splitTok_comma, splitTok_nil]
        rfl
      · rw [splitTok_cons_nil hc splitTok_nil]
        rfl
    | cons d ds =>
      have ht2 : (d :: ds) ≠ [] := by simp
      by_cases hc : c = ','
      · subst hc
        have hL : splitTok (d :: ds) ++ rest ≠ [] := by
          intro hap
          exact splitTok_ne_nil ht2 (List.append_eq_nil.mp hap).1
        rw [splitTok_comma, List.cons_append, joinStar_cons [','] hL,
          if_pos (show (([','] : Str).getLast?) = some ',' from rfl),
          ih ht2, joinStar_comma_head ht2]
        rfl
      · cases hcs : splitTok (d :: ds) with
        | nil => exact absurd hcs (splitTok_ne_nil ht2)
        | cons p ps =>
          have hp : p ≠ [] := (splitTok_sub p (hcs ▸ List.mem_cons_self p ps)).1
          rw [splitTok_cons_cons hc hcs, List.cons_append, joinStar_cons_head hc hp,
            show p :: (ps ++ rest) = (p :: ps) ++ rest from rfl, ← hcs, ih ht2,
            joinStar_cons_head hc ht2]

theorem joinStar_splitAll {toks : List Str} (h : ∀ t ∈ toks, t ≠ []) :
    joinStar (splitAll toks) = joinStar toks := by
  induction toks with
  | nil => rfl
  | cons t ts ih =>
    have ht : t ≠ [] := h t (List.mem_cons_self t ts)
    have ihts := ih fun u hu => h u (List.mem_cons_of_mem t hu)
    cases ts with
    | nil =>
      rw [show splitAll [t] = splitTok t ++ splitAll [] from rfl, splitAll_nil,
        List.append_nil]
      have h2 := joinStar_splitTok_append ht []
      rw [List.append_nil] at h2
      exact h2
    | cons t2 ts2 =>
      have hne : splitAll (t2 :: ts2) ≠ [] :=
        splitAll_ne_nil (by simp) fun u hu => h u (List.mem_cons_of_mem t hu)
      rw [show splitAll (t :: t2 :: ts2) = splitTok t ++ splitAll (t2 :: ts2) from rfl,
        joinStar_splitTok_append ht, joinStar_cons t hne, joinStar_cons t (by simp), ihts]

/-! ### splitWS over expanded tokens -/

theorem splitWS_cons_of {c : Char} (hc : ¬ isWS c) {X : Str} {p : Str} {L : List Str}
    (hX : ∀ d, X.head? = some d → ¬ isWS d) (hsp : splitWS X = p :: L) :
    splitWS (c :: X) = (c :: p) :: L := by
  cases X with
  | nil => rw [splitWS_nil] at hsp; exact absurd hsp (by simp)
  | cons d ds =>
    have hd : ¬ isWS d := hX d rfl
    rw [splitWS_cons_nonws hd] at hsp
    obtain ⟨hp, hL⟩ := List.cons_eq_cons.mp hsp
    rw [splitWS_cons_nonws hc, List.takeWhile_cons, if_pos (by simpa using hd),
      List.dropWhile_cons, if_pos (by simpa using hd), ← hp, hL]

theorem splitWS_expand_append {t : Str} (ht : t ≠ []) (hw : ∀ c ∈ t, ¬ isWS c) {s : Str}
    (hs : s = [] ∨ (∃ u, s = ' ' :: u) ∨ t.getLast? = some ',') :
    splitWS (expand t ++ s) = splitTok t ++ splitWS s := by
  induction t with
  | nil => exact absurd rfl ht
  | cons c t2 ih =>
    cases t2 with
    | nil =>
      by_cases hc : c = ','
      · subst hc
        rw [expand_comma, expand_nil, splitTok_comma, splitTok_nil, List.cons_append,
          List.cons_append, List.nil_append, splitWS_cons_nonws (by decide),
          List.takeWhile_cons, if_neg (by decide), List.dropWhile_cons, if_neg (by decide),
          splitWS_cons_ws (by decide)]
        rfl
      · rw [expand_cons hc, expand_nil, splitTok_cons_nil hc splitTok_nil,
          List.cons_append, List.nil_append]
        rcases hs with rfl | ⟨u, rfl⟩ | hlast
        · rw [splitWS_tok_nil (by simp) (by simpa using hw c (List.mem_cons_self c [])),
            splitWS_nil, List.append_nil]
        · rw [splitWS_cons_nonws (hw c (List.mem_cons_self c [])), List.takeWhile_cons,
            if_neg (by decide), List.dropWhile_cons, if_neg (by decide),
            splitWS_cons_ws (by decide)]
          rfl
        · exact absurd (by simpa using hlast) hc
    | cons d ds =>
      have ht2 : (d :: ds) ≠ [] := by simp
      have hw2 : ∀ e ∈ d :: ds, ¬ isWS e := fun e he => hw e (List.mem_cons_of_mem c he)
      have hlast : (c :: d :: ds).getLast? = (d :: ds).getLast? := List.getLast?_cons_cons
      have hs2 : s = [] ∨ (∃ u, s = ' ' :: u) ∨ (d :: ds).getLast? = some ',' := by
        rcases hs with h1 | h1 | h1
        · exact Or.inl h1
        · exact Or.inr (Or.inl h1)
        · exact Or.inr (Or.inr (hlast ▸ h1))
      have ih2 := ih ht2 hw2 hs2
      by_cases hc : c = ','
      · subst hc
        rw [expand_comma, splitTok_comma, List.cons_append, List.cons_append,
          splitWS_cons_nonws (by decide), List.takeWhile_cons, if_neg (by decide),
          List.dropWhile_cons, if_neg (by decide), splitWS_cons_ws (by decide), ih2]
        rfl
      · cases hcs : splitTok (d :: ds) with
        | nil => exact absurd hcs (splitTok_ne_nil ht2)
        | cons p ps =>
          rw [hcs] at ih2
          have hhead : ∀ e, (expand (d :: ds) ++ s).head? = some e → ¬ isWS e := by
            intro e he
            cases hexp : expand (d :: ds) with
            | nil => exact absurd hexp (expand_ne_nil ht2)
            | cons f fs =>
              rw [hexp, List.cons_append, List.head?_cons, Option.some.injEq] at he
              have hf : (expand (d :: ds)).head? = some f := by rw [hexp]; rfl
              rw [expand_head?, List.head?_cons, Option.some.injEq] at hf
              rw [← he, ← hf]
              exact hw2 d (List.mem_cons_self d ds)
          rw [expand_cons hc, List.cons_append,
            splitWS_cons_of (hw c (List.mem_cons_self c _)) hhead
              (by rw [ih2]; rfl), splitTok_cons_cons hc hcs]
          rfl

theorem splitWS_joinStar {toks : List Str}
    (h : ∀ t ∈ toks, t ≠ [] ∧ ∀ c ∈ t, ¬ isWS c) :
    splitWS (joinStar toks) = splitAll toks := by
  induction toks with
  | nil => rw [joinStar_nil, splitWS_nil, splitAll_nil]
  | cons t ts ih =>
    have ht := h t (List.mem_cons_self t ts)
    have ihts := ih fun u hu => h u (List.mem_cons_of_mem t hu)
    cases ts with
    | nil =>
      rw [joinStar_single, show splitAll [t] = splitTok t ++ splitAll [] from rfl,
        splitAll_nil, List.append_nil]
      have h2 := @splitWS_expand_append _ ht.1 ht.2 [] (Or.inl rfl)
      rw [List.append_nil, splitWS_nil, List.append_nil] at h2
      exact h2
    | cons t2 ts2 =>
      rw [joinStar_cons t (by simp), show splitAll (t :: t2 :: ts2)
        = splitTok t ++ splitAll (t2 :: ts2) from rfl]
      by_cases hlast : t.getLast? = some ','
      · rw [if_pos hlast, splitWS_expand_append ht.1 ht.2 (Or.inr (Or.inr hlast)), ihts]
      · rw [if_neg hlast,
          splitWS_expand_append ht.1 ht.2 (Or.inr (Or.inl ⟨joinStar (t2 :: ts2), rfl⟩)),
          splitWS_cons_ws (by decide), ihts]

/-! ### The operand round trip -/

theorem formatOperands_reparse {toks : List Str}
    (h : ∀ t ∈ toks, t ≠ [] ∧ ∀ c ∈ t, ¬ isWS c) (cfg : FormatConfig) :
    formatOperands (joinSp (if cfg.spaceAfterComma then splitAll toks else toks)) cfg
      = formatOperands (joinSp toks) cfg := by
  by_cases flag : cfg.spaceAfterComma
  · rw [if_pos flag]
    cases toks with
    | nil => rw [splitAll_nil]
    | cons t ts =>
      have hone : ∀ u ∈ t :: ts, u ≠ [] := fun u hu => (h u hu).1
      have hnn : joinSp (splitAll (t :: ts)) ≠ [] := by
        rw [Ne, joinSp_eq_nil_iff fun p hp => (splitAll_facts h p hp).1]
        exact splitAll_ne_nil (by simp) hone
      have hnn2 : joinSp (t :: ts) ≠ [] := by
        rw [Ne, joinSp_eq_nil_iff hone]
        simp
      rw [formatOperands, if_neg hnn, if_pos flag, formatOperands, if_neg hnn2,
        if_pos flag, replStar_joinSp (splitAll_facts h), replStar_joinSp h,
        joinStar_splitAll hone]
  · rw [if_neg flag]

/-! ### More whitespace-structure lemmas -/

theorem trimEnd_decomp (s : Str) :
    ∃ w, (∀ c ∈ w, isWS c) ∧ s = trimEnd s ++ w := by
  refine ⟨(List.takeWhile isWS s.reverse).reverse, ?_, ?_⟩
  · intro c hc
    exact List.mem_takeWhile_imp (List.mem_reverse.mp hc)
  · conv_lhs => rw [← List.reverse_reverse s, ← List.takeWhile_append_dropWhile isWS s.reverse]
    rw [List.reverse_append]
    rfl

theorem trimStart_decomp (s : Str) :
    ∃ w, (∀ c ∈ w, isWS c) ∧ s = w ++ trimStart s := by
  refine ⟨List.takeWhile isWS s, ?_, ?_⟩
  · intro c hc
    exact List.mem_takeWhile_imp hc
  · rw [trimStart, List.takeWhile_append_dropWhile]

theorem trimEnd_subset {s : Str} {c : Char} (h : c ∈ trimEnd s) : c ∈ s := by
  obtain ⟨w, _, hsw⟩ := trimEnd_decomp s
  rw [hsw]
  exact List.mem_append.mpr (Or.inl h)

theorem trimStart_subset {s : Str} {c : Char} (h : c ∈ trimStart s) : c ∈ s :=
  (List.dropWhile_sublist isWS).subset h

theorem trim_subset {s : Str} {c : Char} (h : c ∈ trim s) : c ∈ s :=
  trimStart_subset (trimEnd_subset h)

theorem takeWhile_nonws_allws {w : Str} (hw : ∀ c ∈ w, isWS c) :
    w.takeWhile (fun d => !isWS d) = [] := by
  cases w with
  | nil => rfl
  | cons c cs =>
    rw [List.takeWhile_cons, if_neg]
    simp [hw c (List.mem_cons_self c cs)]

theorem dropWhile_nonws_allws {w : Str} (hw : ∀ c ∈ w, isWS c) :
    w.dropWhile (fun d => !isWS d) = w := by
  cases w with
  | nil => rfl
  | cons c cs =>
    rw [List.dropWhile_cons, if_neg]
    simp [hw c (List.mem_cons_self c cs)]

theorem splitWS_append_ws {w : Str} (hw : ∀ c ∈ w, isWS c) (a : Str) :
    splitWS (a ++ w) = splitWS a := by
  induction a using splitWS.induct with
  | case1 =>
    rw [List.nil_append, splitWS_nil, splitWS_allWS hw]
  | case2 c cs h ih =>
    rw [List.cons_append, splitWS_cons_ws h, splitWS_cons_ws h, ih]
  | case3 c cs h ih =>
    rw [List.cons_append, splitWS_cons_nonws h, splitWS_cons_nonws h]
    by_cases hall : (cs.takeWhile (fun d => !isWS d)).length = cs.length
    · have heq : cs.takeWhile (fun d => !isWS d) = cs :=
        (List.takeWhile_sublist _).eq_of_length hall
      have hdrop : cs.dropWhile (fun d => !isWS d) = [] := by
        have hlen := congrArg List.length
          (List.takeWhile_append_dropWhile (fun d => !isWS d) cs)
        rw [List.length_append] at hlen
        have hz : (cs.dropWhile fun d => !isWS d).length = 0 := by omega
        exact List.length_eq_zero.mp hz
      rw [List.takeWhile_append, if_pos hall, List.dropWhile_append, heq,
        takeWhile_nonws_allws hw, dropWhile_nonws_allws hw, hdrop]
      simp [splitWS_nil, splitWS_allWS hw]
    · have hdropne : cs.dropWhile (fun d => !isWS d) ≠ [] := by
        intro hnil
        have hlen := congrArg List.length
          (List.takeWhile_append_dropWhile (fun d => !isWS d) cs)
        rw [List.length_append, hnil] at hlen
        simp at hlen
        exact hall hlen
      rw [List.takeWhile_append, if_neg hall, List.dropWhile_append,
        if_neg (by simpa [List.isEmpty_iff] using hdropne), ih]

theorem splitWS_trimEnd (s : Str) : splitWS (trimEnd s) = splitWS s := by
  obtain ⟨w, hw, hsw⟩ := trimEnd_decomp s
  conv_rhs => rw [hsw]
  rw [splitWS_append_ws hw]

theorem splitWS_trimStart (s : Str) : splitWS (trimStart s) = splitWS s := by
  obtain ⟨w, hw, hsw⟩ := trimStart_decomp s
  conv_rhs => rw [hsw]
  rw [splitWS_ws_append hw]

theorem splitWS_trim (s : Str) : splitWS (trim s) = splitWS s := by
  rw [trim, splitWS_trimEnd, splitWS_trimStart]

theorem splitWS_tok_wsapp {t : Str} (ht : t ≠ []) (hw : ∀ c ∈ t, ¬ isWS c)
    {w : Str} (hwne : w ≠ []) (hww : ∀ c ∈ w, isWS c) (s : Str) :
    splitWS (t ++ w ++ s) = t :: splitWS s := by
  cases w with
  | nil => exact absurd rfl hwne
  | cons d ds =>
    have hd : isWS d := hww d (List.mem_cons_self d ds)
    rw [List.append_assoc, splitWS_tok_append ht hw, List.cons_append,
      List.takeWhile_cons, if_neg (by simp [hd]), List.dropWhile_cons,
      if_neg (by simp [hd]), List.append_nil, splitWS_cons_ws hd,
      splitWS_ws_append (fun c hc => hww c (List.mem_cons_of_mem d hc))]

theorem beforeSemi_eq_self {s : Str} (h : ';' ∉ s) : beforeSemi s = s := by
  induction s with
  | nil => rfl
  | cons c cs ih =>
    rw [beforeSemi, if_neg (fun hc => h (by rw [hc]; exact List.mem_cons_self _ _)),
      ih fun hm => h (List.mem_cons_of_mem c hm)]

/-! ### Character-content closure lemmas -/

theorem mem_upper {s : Str} {c : Char} (h : c ∈ upper s) :
    ∃ d ∈ s, c = upChar d := by
  obtain ⟨d, hd, hcd⟩ := List.mem_map.mp h
  exact ⟨d, hd, hcd.symm⟩

theorem upper_no_semi {s : Str} (h : ';' ∉ s) : ';' ∉ upper s := by
  intro hm
  obtain ⟨d, hd, hcd⟩ := mem_upper hm
  rw [(upChar_eq_special (by decide)).mp hcd.symm] at hd
  exact h hd

theorem upper_wsfree {s : Str} (h : ∀ c ∈ s, ¬ isWS c) : ∀ c ∈ upper s, ¬ isWS c := by
  intro c hc
  obtain ⟨d, hd, hcd⟩ := mem_upper hc
  rw [hcd, isWS_upChar]
  exact h d hd

theorem mem_replStar {s : Str} {c : Char} (h : c ∈ replStar s) : c ∈ s ∨ c = ' ' := by
  induction s using replStar.induct with
  | case1 => rw [replStar_nil] at h; exact absurd h (by simp)
  | case2 cs ih =>
    rw [replStar_comma] at h
    rcases List.mem_cons.mp h with rfl | h2
    · exact Or.inl (List.mem_cons_self _ _)
    · rcases List.mem_cons.mp h2 with rfl | h3
      · exact Or.inr rfl
      · rcases ih h3 with h4 | h4
        · exact Or.inl (List.mem_cons_of_mem _
            ((List.dropWhile_sublist isWS).subset h4))
        · exact Or.inr h4
  | case3 c2 cs h2 ih =>
    rw [replStar_cons h2] at h
    rcases List.mem_cons.mp h with rfl | h3
    · exact Or.inl (List.mem_cons_self _ _)
    · rcases ih h3 with h4 | h4
      · exact Or.inl (List.mem_cons_of_mem _ h4)
      · exact Or.inr h4

theorem mem_replPlus {s : Str} {c : Char} (h : c ∈ replPlus s) : c ∈ s ∨ c = ' ' := by
  induction s using replPlus.induct with
  | case1 => rw [replPlus] at h; exact absurd h (by simp)
  | case2 c2 => rw [replPlus] at h; exact Or.inl h
  | case3 c2 d cs h2 ih =>
    rw [replPlus, if_pos h2] at h
    rcases List.mem_cons.mp h with rfl | h3
    · exact Or.inl (by rw [h2.1]; exact List.mem_cons_self _ _)
    · rcases List.mem_cons.mp h3 with rfl | h4
      · exact Or.inr rfl
      · rcases ih h4 with h5 | h5
        · exact Or.inl (List.mem_cons_of_mem _
            ((List.dropWhile_sublist isWS).subset h5))
        · exact Or.inr h5
  | case4 c2 d cs h2 ih =>
    rw [replPlus, if_neg h2] at h
    rcases List.mem_cons.mp h with rfl | h3
    · exact Or.inl (List.mem_cons_self _ _)
    · rcases ih h3 with h4 | h4
      · exact Or.inl (List.mem_cons_of_mem _ h4)
      · exact Or.inr h4

theorem formatOperands_no_semi {ops : Str} (h : ';' ∉ ops) (cfg : FormatConfig) :
    ';' ∉ formatOperands ops cfg := by
  rw [formatOperands]
  split_ifs with h1 h2
  · simp
  · intro hm
    rcases mem_replPlus hm with h3 | h3
    · rcases mem_replStar h3 with h4 | h4
      · exact h h4
      · exact absurd h4 (by decide)
    · exact absurd h3 (by decide)
  · exact h

/-! ### Instruction-casing lemmas -/

theorem caseInstruction_cases (inst : Str) (cfg : FormatConfig) :
    caseInstruction inst cfg = inst ∨ caseInstruction inst cfg = upper inst := by
  rw [caseInstruction]
  split_ifs
  · exact Or.inr rfl
  · exact Or.inr rfl
  · exact Or.inl rfl

theorem upper_caseInstruction (inst : Str) (cfg : FormatConfig) :
    upper (caseInstruction inst cfg) = upper inst := by
  rcases caseInstruction_cases inst cfg with h | h
  · rw [h]
  · rw [h, upper_upper]

theorem isInstOrDirTok_congr {a b : Str} (h : upper a = upper b) :
    isInstOrDirTok a = isInstOrDirTok b := by
  rw [isInstOrDirTok, isInstOrDirTok, h]

theorem caseInstruction_idem (inst : Str) (cfg : FormatConfig) :
    caseInstruction (caseInstruction inst cfg) cfg = caseInstruction inst cfg := by
  by_cases h1 : (decide (upper inst ∈ INSTRUCTIONS) && cfg.uppercaseInstructions) = true
  · have hin : caseInstruction inst cfg = upper inst := by
      rw [caseInstruction, if_pos h1]
    rw [hin, caseInstruction, upper_upper, if_pos h1]
  · by_cases h2 : (decide (upper inst ∈ DIRECTIVES) && cfg.uppercaseDirectives) = true
    · have hin : caseInstruction inst cfg = upper inst := by
        rw [caseInstruction, if_neg h1, if_pos h2]
      rw [hin, caseInstruction, upper_upper, if_neg h1, if_pos h2]
    · have hin : caseInstruction inst cfg = inst := by
        rw [caseInstruction, if_neg h1, if_neg h2]
      rw [hin, hin]

theorem upper_ne_nil {s : Str} (h : s ≠ []) : upper s ≠ [] := by
  cases s with
  | nil => exact absurd rfl h
  | cons c cs => simp [upper]

theorem caseInstruction_ne_nil {inst : Str} (h : inst ≠ []) (cfg : FormatConfig) :
    caseInstruction inst cfg ≠ [] := by
  rcases caseInstruction_cases inst cfg with h2 | h2 <;> rw [h2]
  · exact h
  · exact upper_ne_nil h

theorem caseInstruction_wsfree {inst : Str} (h : ∀ c ∈ inst, ¬ isWS c)
    (cfg : FormatConfig) : ∀ c ∈ caseInstruction inst cfg, ¬ isWS c := by
  rcases caseInstruction_cases inst cfg with h2 | h2 <;> rw [h2]
  · exact h
  · exact upper_wsfree h

theorem caseInstruction_no_semi {inst : Str} (h : ';' ∉ inst) (cfg : FormatConfig) :
    ';' ∉ caseInstruction inst cfg := by
  rcases caseInstruction_cases inst cfg with h2 | h2 <;> rw [h2]
  · exact h
  · exact upper_no_semi h

theorem upper_head_not {s : Str} {d : Char} (hd : d ∈ ([';', '*', '.', ','] : List Char))
    (h : s.head? ≠ some d) : (upper s).head? ≠ some d := by
  intro hm
  rw [head?_upper] at hm
  cases hs : s.head? with
  | none => rw [hs] at hm; simp at hm
  | some c =>
    rw [hs] at hm
    simp only [Option.map_some', Option.some.injEq] at hm
    rw [(upChar_eq_special hd).mp hm] at hs
    exact h hs

theorem caseInstruction_head_not {inst : Str} {d : Char}
    (hd : d ∈ ([';', '*', '.', ','] : List Char)) (h : inst.head? ≠ some d)
    (cfg : FormatConfig) : (caseInstruction inst cfg).head? ≠ some d := by
  rcases caseInstruction_cases inst cfg with h2 | h2 <;> rw [h2]
  · exact h
  · exact upper_head_not hd h

/-! ### Reparsing the rendered operand field -/

theorem splitWS_formatOperands {toks : List Str}
    (h : ∀ t ∈ toks, t ≠ [] ∧ ∀ c ∈ t, ¬ isWS c) (cfg : FormatConfig) :
    splitWS (formatOperands (joinSp toks) cfg)
      = if cfg.spaceAfterComma = true then splitAll toks else toks := by
  cases toks with
  | nil =>
    rw [show joinSp [] = [] from rfl, formatOperands, if_pos rfl, splitWS_nil,
      splitAll_nil]
    split_ifs <;> rfl
  | cons t ts =>
    have hnn : joinSp (t :: ts) ≠ [] := by
      rw [Ne, joinSp_eq_nil_iff fun u hu => (h u hu).1]
      simp
    rw [formatOperands, if_neg hnn]
    by_cases flag : cfg.spaceAfterComma = true
    · rw [if_pos flag, if_pos flag, replPlus_replStar, replStar_joinSp h,
        splitWS_joinStar h]
    · rw [if_neg flag, if_neg flag, splitWS_joinSp h]

/-! ### Heads, trims and the comment field -/

theorem trimEnd_cons_nonws {c : Char} (h : ¬ isWS c) (u : Str) :
    trimEnd (c :: u) = c :: trimEnd u := by
  rw [show c :: u = [c] ++ u from rfl, trimEnd_append]
  split_ifs with h2
  · rw [h2, trimEnd_nonws (by simpa using h)]
  · rfl

theorem trimStart_head_not {s : Str} {c : Char}
    (h : (trimStart s).head? = some c) : ¬ isWS c :=
  dropWhile_ws_head_not h

theorem trimStart_ws_append {w : Str} (hw : ∀ c ∈ w, isWS c) (s : Str) :
    trimStart (w ++ s) = trimStart s := by
  induction w with
  | nil => rfl
  | cons c cs ih =>
    rw [List.cons_append, trimStart_cons_ws (hw c (List.mem_cons_self c cs))]
    exact ih fun d hd => hw d (List.mem_cons_of_mem c hd)

theorem trimStart_trimEnd_comm (y : Str) :
    trimStart (trimEnd y) = trimEnd (trimStart y) := by
  cases hts : trimStart y with
  | nil =>
    have hall : ∀ c ∈ y, isWS c := by
      intro c hc
      have h2 : y.dropWhile isWS = [] := hts
      exact List.dropWhile_eq_nil_iff.mp h2 c hc
    rw [(trimEnd_eq_nil_iff y).mpr hall]
    rfl
  | cons c u =>
    have hc : ¬ isWS c := trimStart_head_not (by rw [hts]; rfl)
    obtain ⟨w, hw, hdec⟩ := trimStart_decomp y
    rw [hts] at hdec
    conv_lhs => rw [hdec]
    rw [trimEnd_append_nonws (by rw [trimEnd_cons_nonws hc]; simp),
      trimStart_ws_append hw, trimEnd_cons_nonws hc,
      trimStart_cons_nonws hc, ← trimEnd_cons_nonws hc]

theorem trimStart_idem (s : Str) : trimStart (trimStart s) = trimStart s := by
  unfold trimStart
  rw [List.dropWhile_idempotent]

theorem head_trimStart_trim (x : Str) :
    (trimStart (trim x)).head? = (trimStart x).head? := by
  rw [trim, ← trimStart_trimEnd_comm, trimStart_idem, trimStart_trimEnd_comm]
  cases hts : trimStart x with
  | nil => rw [(trimEnd_eq_nil_iff ([] : Str)).mpr (by simp)]
  | cons c u =>
    have hc : ¬ isWS c := trimStart_head_not (by rw [hts]; rfl)
    rw [trimEnd_cons_nonws hc]
    rfl

theorem trimStart_beforeSemi_head {line : Str}
    (h : (trimStart line).head? ≠ some ';') :
    (trimStart (beforeSemi line)).head? = (trimStart line).head? := by
  induction line with
  | nil => rfl
  | cons c cs ih =>
    by_cases hws : isWS c
    · have hc : ¬ c = ';' := fun hcc => by
        rw [hcc] at hws
        exact absurd hws (by decide)
      rw [trimStart_cons_ws hws] at h
      rw [beforeSemi, if_neg hc, trimStart_cons_ws hws, trimStart_cons_ws hws]
      exact ih h
    · rw [trimStart_cons_nonws hws] at h
      have hc : ¬ c = ';' := fun hcc => h (by rw [hcc]; rfl)
      rw [beforeSemi, if_neg hc, trimStart_cons_nonws hws, trimStart_cons_nonws hws]
      rfl

theorem splitWS_head {x : Str} :
    ∀ {t : Str} {ts : List Str}, splitWS x = t :: ts → t.head? = (trimStart x).head? := by
  induction x using splitWS.induct with
  | case1 =>
    intro t ts h
    rw [splitWS_nil] at h
    exact absurd h (by simp)
  | case2 c cs h ih =>
    intro t ts hsp
    rw [splitWS_cons_ws h] at hsp
    rw [trimStart_cons_ws h]
    exact ih hsp
  | case3 c cs h ih =>
    intro t ts hsp
    rw [splitWS_cons_nonws h] at hsp
    obtain ⟨ht, _⟩ := List.cons_eq_cons.mp hsp
    rw [trimStart_cons_nonws h, ← ht]
    rfl

theorem lineComment_spec (line : Str) :
    lineComment line = [] ∨
      ((lineComment line).head? = some ';' ∧
        trimEnd (lineComment line) = lineComment line ∧ lineComment line ≠ []) := by
  rw [lineComment]
  by_cases h : hasSemi line = true
  · rw [if_pos h]
    obtain ⟨u, hu⟩ := fromSemi_of_hasSemi h
    rw [hu]
    right
    have hsemi : ¬ isWS ';' := by decide
    rw [trim, trimStart_cons_nonws hsemi, trimEnd_cons_nonws hsemi]
    refine ⟨rfl, ?_, by simp⟩
    rw [trimEnd_cons_nonws hsemi, trimEnd_idem]
  · rw [if_neg h]
    exact Or.inl rfl

/-! ### Branch lemmas for parseLine and formatLine -/

theorem parseLine_comment_branch {line : Str}
    (h : (trimStart line).head? = some '*' ∨ (trimStart line).head? = some ';') :
    parseLine line = { emptyParsed with comment := trimStart line } := by
  rw [parseLine, if_pos h]

theorem parseLine_blankcode {line : Str}
    (h1 : ¬ ((trimStart line).head? = some '*' ∨ (trimStart line).head? = some ';'))
    (h2 : trim (trimEnd (beforeSemi line)) = []) :
    parseLine line = { emptyParsed with comment := lineComment line } := by
  rw [parseLine, if_neg h1, if_pos h2]

theorem parseLine_code {line : Str}
    (h1 : ¬ ((trimStart line).head? = some '*' ∨ (trimStart line).head? = some ';'))
    (h2 : trim (trimEnd (beforeSemi line)) ≠ []) :
    parseLine line
      = parseTokens (splitWS (trim (trimEnd (beforeSemi line)))) (lineComment line) := by
  rw [parseLine, if_neg h1, if_neg h2]

theorem formatLine_blank {line : Str} (h : trim line = []) (cfg : FormatConfig) :
    formatLine line cfg = [] := by
  rw [formatLine, if_pos h]

theorem formatLine_whole_comment {line : Str} (cfg : FormatConfig)
    (h1 : trim line ≠ [])
    (h2 : (parseLine line).comment ≠ [] ∧ (parseLine line).label = []
      ∧ (parseLine line).instruction = [] ∧ (parseLine line).operands = []) :
    formatLine line cfg =
      if trimStart line = line then (parseLine line).comment
      else padEnd [] cfg.commentColumn ++ (parseLine line).comment := by
  rw [formatLine, if_neg h1, if_pos h2]

theorem formatLine_main {line : Str} (cfg : FormatConfig)
    (h1 : trim line ≠ [])
    (h2 : ¬ ((parseLine line).comment ≠ [] ∧ (parseLine line).label = []
      ∧ (parseLine line).instruction = [] ∧ (parseLine line).operands = [])) :
    formatLine line cfg =
      trimEnd (placeComment (renderCode (parseLine line) cfg)
        (parseLine line).comment cfg) := by
  rw [formatLine, if_neg h1, if_neg h2]

/-! ### Decomposing a rendered line around its comment -/

theorem head?_append_left {a : Str} (ha : a ≠ []) (b : Str) :
    (a ++ b).head? = a.head? := by
  cases a with
  | nil => exact absurd rfl ha
  | cons c cs => rfl

theorem trimStart_append_left {a : Str} (h : trimStart a ≠ []) (b : Str) :
    trimStart (a ++ b) = trimStart a ++ b := by
  unfold trimStart at h ⊢
  rw [List.dropWhile_append, if_neg (by simpa [List.isEmpty_iff] using h)]

theorem replicate_ws (n : Nat) : ∀ c ∈ List.replicate n ' ', isWS c := by
  intro c hc
  rw [List.eq_of_mem_replicate hc]
  rfl

theorem placeComment_decomp (C comment : Str) (cfg : FormatConfig) (hCsemi : ';' ∉ C)
    (hcom : comment = [] ∨ (comment.head? = some ';' ∧
      trimEnd comment = comment ∧ comment ≠ [])) :
    ∃ w, (∀ c ∈ w, isWS c) ∧
      trimEnd (placeComment C comment cfg) = (trimEnd C ++ w) ++ comment ∧
      beforeSemi (trimEnd (placeComment C comment cfg)) = trimEnd C ++ w ∧
      lineComment (trimEnd (placeComment C comment cfg)) = comment := by
  have hCsemi2 : ';' ∉ trimEnd C := fun hm => hCsemi (trimEnd_subset hm)
  rcases hcom with rfl | ⟨hhead, htrim, hne⟩
  · refine ⟨[], by simp, ?_, ?_, ?_⟩
    · rw [placeComment, if_neg (by simp), List.append_nil, List.append_nil]
    · rw [placeComment, if_neg (by simp), List.append_nil,
        beforeSemi_eq_self hCsemi2]
    · rw [placeComment, if_neg (by simp), lineComment,
        not_hasSemi_of_not_mem hCsemi2]
      rfl
  · obtain ⟨u, hu⟩ : ∃ u, comment = ';' :: u := by
      cases comment with
      | nil => exact absurd rfl hne
      | cons c cs =>
        refine ⟨cs, ?_⟩
        have hc : c = ';' := by simpa using congrArg (Option.getD · ' ') hhead
        rw [hc]
    have key : ∀ w, (∀ c ∈ w, isWS c) →
        trimEnd ((trimEnd C ++ w) ++ comment) = (trimEnd C ++ w) ++ comment ∧
        beforeSemi ((trimEnd C ++ w) ++ comment) = trimEnd C ++ w ∧
        lineComment ((trimEnd C ++ w) ++ comment) = comment := by
      intro w hw
      have hwsemi : ';' ∉ trimEnd C ++ w := by
        intro hm
        rcases List.mem_append.mp hm with hm2 | hm2
        · exact hCsemi2 hm2
        · exact absurd (hw _ hm2) (by decide)
      refine ⟨?_, ?_, ?_⟩
      · rw [trimEnd_append_nonws (by rw [htrim]; exact hne), htrim]
      · rw [beforeSemi_append_no hwsemi, hu, beforeSemi, if_pos rfl, List.append_nil]
      · rw [lineComment, hasSemi_append_no hwsemi,
          hasSemi_of_mem (by rw [hu]; exact List.mem_cons_self _ _),
          fromSemi_append_no hwsemi, if_pos rfl, hu, fromSemi, if_pos rfl, ← hu]
        show trimEnd (trimStart comment) = comment
        rw [hu, trimStart_cons_nonws (show ¬ isWS ';' from by decide), ← hu, htrim]
    rw [placeComment, if_pos hne]
    split_ifs with hlen
    · have heq2 : padEnd (trimEnd C) cfg.commentColumn ++ comment
        = (trimEnd C ++ List.replicate
            (cfg.commentColumn - (trimEnd C).length) ' ') ++ comment := rfl
      have hws := replicate_ws (cfg.commentColumn - (trimEnd C).length)
      have hk := key _ hws
      rw [heq2, hk.1]
      exact ⟨_, hws, rfl, hk.2.1, hk.2.2⟩
    · have heq2 : trimEnd C ++ ' ' :: ' ' :: comment
        = (trimEnd C ++ [' ', ' ']) ++ comment := by
        rw [List.append_assoc]
        rfl
      have hk := key [' ', ' '] (by decide)
      rw [heq2, hk.1]
      exact ⟨[' ', ' '], by decide, rfl, hk.2.1, hk.2.2⟩

/-! ### Rendering-shape lemmas -/

theorem renderCode_eq (p : ParsedLine) (cfg : FormatConfig) :
    renderCode p cfg =
      if p.operands ≠ [] then
        trimEnd (if p.instruction ≠ []
            then labelField p.label cfg ++ caseInstruction p.instruction cfg
            else labelField p.label cfg)
          ++ ' ' :: formatOperands p.operands cfg
      else if p.instruction ≠ []
        then labelField p.label cfg ++ caseInstruction p.instruction cfg
        else labelField p.label cfg := rfl

theorem renderCode_noinst (lab comment : Str) (cfg : FormatConfig) :
    renderCode ⟨lab, [], [], comment⟩ cfg = labelField lab cfg := by
  rw [renderCode_eq]
  simp

theorem renderCode_noops {inst : Str} (hinst : inst ≠ []) (lab comment : Str)
    (cfg : FormatConfig) :
    renderCode ⟨lab, inst, [], comment⟩ cfg
      = labelField lab cfg ++ caseInstruction inst cfg := by
  rw [renderCode_eq]
  simp [hinst]

theorem renderCode_ops {inst ops : Str} (hinst : inst ≠ []) (hops : ops ≠ [])
    (lab comment : Str) (cfg : FormatConfig) :
    renderCode ⟨lab, inst, ops, comment⟩ cfg
      = trimEnd (labelField lab cfg ++ caseInstruction inst cfg)
        ++ ' ' :: formatOperands ops cfg := by
  rw [renderCode_eq]
  simp [hinst, hops]

theorem labelField_decomp (lab : Str) (cfg : FormatConfig) :
    ∃ k, labelField lab cfg = lab ++ List.replicate k ' ' ∧ (lab ≠ [] → 1 ≤ k) := by
  by_cases hlab : lab = []
  · subst hlab
    exact ⟨cfg.instructionColumn, by rw [labelField, if_neg (by simp), List.nil_append],
      by simp⟩
  · rw [labelField, if_pos hlab]
    split_ifs with hlen
    · exact ⟨1, by rw [List.replicate_one], fun _ => le_refl 1⟩
    · refine ⟨cfg.instructionColumn - lab.length, rfl, fun _ => ?_⟩
      omega

theorem head_after_trim {w0 : Str} (hw0 : ∀ c ∈ w0, isWS c) {pre : Str} (hpre : pre ≠ [])
    (hwf : ∀ c ∈ pre, ¬ isWS c) (Y : Str) :
    (trimStart (trimEnd (w0 ++ (pre ++ Y)))).head? = pre.head?
      ∧ trimStart (trimEnd (w0 ++ (pre ++ Y))) ≠ [] := by
  rw [trimStart_trimEnd_comm, trimStart_ws_append hw0]
  obtain ⟨c, cs, rfl⟩ : ∃ c cs, pre = c :: cs := by
    cases pre with
    | nil => exact absurd rfl hpre
    | cons c cs => exact ⟨c, cs, rfl⟩
  have hc : ¬ isWS c := hwf c (List.mem_cons_self c cs)
  rw [List.cons_append, trimStart_cons_nonws hc, trimEnd_cons_nonws hc]
  exact ⟨rfl, by simp⟩

/-! ### Reparsing a rendered line -/

theorem reparse_render (cfg : FormatConfig) (C comment : Str) (p2 : ParsedLine)
    (hCsemi : ';' ∉ C)
    (hcom : comment = [] ∨ (comment.head? = some ';' ∧
      trimEnd comment = comment ∧ comment ≠ []))
    (hhead : ∃ q, (trimStart (trimEnd C)).head? = some q ∧ ¬ isWS q
      ∧ q ≠ '*' ∧ q ≠ ';')
    (htoks : splitWS C ≠ [])
    (hparse : parseTokens (splitWS C) comment = p2)
    (hshape : ¬ (p2.comment ≠ [] ∧ p2.label = [] ∧ p2.instruction = []
      ∧ p2.operands = []))
    (hrender : renderCode p2 cfg = C)
    (hcomm2 : p2.comment = comment) :
    formatLine (trimEnd (placeComment C comment cfg)) cfg
      = trimEnd (placeComment C comment cfg) := by
  obtain ⟨w, hw, hdecomp, hbefore, hlinec⟩ := placeComment_decomp C comment cfg hCsemi hcom
  obtain ⟨q, hq, hqws, hqstar, hqsemi⟩ := hhead
  have hts_ne : trimStart (trimEnd C) ≠ [] := by
    intro hnil
    rw [hnil] at hq
    exact absurd hq (by simp)
  have htso : trimStart (trimEnd (placeComment C comment cfg))
      = trimStart (trimEnd C) ++ (w ++ comment) := by
    rw [hdecomp, List.append_assoc]
    exact trimStart_append_left hts_ne _
  have hhead_o : (trimStart (trimEnd (placeComment C comment cfg))).head? = some q := by
    rw [htso, head?_append_left hts_ne, hq]
  have hsplit : splitWS (trim (trimEnd (beforeSemi
      (trimEnd (placeComment C comment cfg))))) = splitWS C := by
    rw [splitWS_trim, splitWS_trimEnd, hbefore, splitWS_append_ws hw, splitWS_trimEnd]
  have h1 : ¬ ((trimStart (trimEnd (placeComment C comment cfg))).head? = some '*'
      ∨ (trimStart (trimEnd (placeComment C comment cfg))).head? = some ';') := by
    rw [hhead_o]
    rintro (hc | hc) <;> simp only [Option.some.injEq] at hc
    · exact hqstar hc
    · exact hqsemi hc
  have h2 : trim (trimEnd (beforeSemi (trimEnd (placeComment C comment cfg)))) ≠ [] := by
    intro hnil
    rw [hnil, splitWS_nil] at hsplit
    exact htoks hsplit.symm
  have hpo : parseLine (trimEnd (placeComment C comment cfg)) = p2 := by
    rw [parseLine_code h1 h2, hsplit, hlinec, hparse]
  have hqmem : q ∈ trimEnd (placeComment C comment cfg) := by
    apply trimStart_subset
    cases hts : trimStart (trimEnd (placeComment C comment cfg)) with
    | nil => rw [hts] at hhead_o; exact absurd hhead_o (by simp)
    | cons c cs =>
      rw [hts] at hhead_o
      simp only [List.head?_cons, Option.some.injEq] at hhead_o
      rw [← hhead_o]
      exact List.mem_cons_self c cs
  have hblank : trim (trimEnd (placeComment C comment cfg)) ≠ [] := by
    intro hnil
    exact hqws ((trim_eq_nil_iff _).mp hnil q hqmem)
  rw [formatLine_main cfg hblank (by rw [hpo]; exact hshape), hpo, hrender, hcomm2]

theorem joinSp_no_semi {opsToks : List Str}
    (hops : ∀ t ∈ opsToks, ';' ∉ t) : ';' ∉ joinSp opsToks := by
  intro hm
  rcases joinSp_mem hm with h | ⟨t, ht, hmem⟩
  · exact absurd h (by decide)
  · exact hops t ht hmem

theorem head_q_facts {x : Str} (hx : x ≠ []) (hw : ∀ c ∈ x, ¬ isWS c)
    (hstar : x.head? ≠ some '*') (hsemi : x.head? ≠ some ';')
    {y : Str} (hy : y.head? = x.head?) :
    ∃ q, y.head? = some q ∧ ¬ isWS q ∧ q ≠ '*' ∧ q ≠ ';' := by
  obtain ⟨c, cs, rfl⟩ : ∃ c cs, x = c :: cs := by
    cases x with
    | nil => exact absurd rfl hx
    | cons c cs => exact ⟨c, cs, rfl⟩
  refine ⟨c, by rw [hy]; rfl, hw c (List.mem_cons_self c cs), ?_, ?_⟩
  · intro h
    exact hstar (by rw [show ((c :: cs : Str)).head? = some c from rfl, h])
  · intro h
    exact hsemi (by rw [show ((c :: cs : Str)).head? = some c from rfl, h])

theorem head_ne_of_not_mem {x : Str} {d : Char} (h : d ∉ x) : x.head? ≠ some d := by
  cases x with
  | nil => simp
  | cons c cs =>
    intro hc
    simp only [List.head?_cons, Option.some.injEq] at hc
    exact h (hc ▸ List.mem_cons_self c cs)

theorem replicate_space_ne {k : Nat} (hk : 1 ≤ k) :
    List.replicate k ' ' ≠ ([] : Str) := by
  intro h
  have h2 := congrArg List.length h
  simp at h2
  omega

/-- Re-running the formatter over an already-rendered main-path line is the
identity: the rendered label, cased instruction, normalised operands and
trimmed comment parse back to a fixed point of the renderer. -/
theorem reformat_fixed (cfg : FormatConfig) (lab inst comment : Str)
    (opsToks : List Str)
    (hlabE : lab = [] → inst ≠ [] ∧ isInstOrDirTok inst = true)
    (hlabN : lab ≠ [] → isInstOrDirTok lab = false)
    (hlabF : lab ≠ [] → (∀ c ∈ lab, ¬ isWS c) ∧ ';' ∉ lab ∧
      lab.head? ≠ some '*' ∧ lab.head? ≠ some ';')
    (hinstF : inst ≠ [] → (∀ c ∈ inst, ¬ isWS c) ∧ ';' ∉ inst)
    (hinstStar : lab = [] → inst.head? ≠ some '*')
    (hinst0 : inst = [] → opsToks = [])
    (hops : ∀ t ∈ opsToks, t ≠ [] ∧ (∀ c ∈ t, ¬ isWS c) ∧ ';' ∉ t)
    (hcom : comment = [] ∨ (comment.head? = some ';' ∧
      trimEnd comment = comment ∧ comment ≠ [])) :
    formatLine (trimEnd (placeComment
        (renderCode ⟨lab, inst, joinSp opsToks, comment⟩ cfg) comment cfg)) cfg
      = trimEnd (placeComment (renderCode ⟨lab, inst, joinSp opsToks, comment⟩ cfg)
          comment cfg) := by
  obtain ⟨k, hLk, hk1⟩ := labelField_decomp lab cfg
  rcases eq_or_ne inst [] with hinstE | hinstN
  · -- no instruction: a bare label (with possible comment)
    subst hinstE
    have hopsE : opsToks = [] := hinst0 rfl
    subst hopsE
    have hlab : lab ≠ [] := fun h => (hlabE h).1 rfl
    obtain ⟨hlabW, hlabS, hlabStar, hlabSemi⟩ := hlabF hlab
    have hC : renderCode ⟨lab, [], joinSp [], comment⟩ cfg
        = lab ++ List.replicate k ' ' := by
      rw [show joinSp ([] : List Str) = [] from rfl, renderCode_noinst, hLk]
    rw [hC]
    have hsp : splitWS (lab ++ List.replicate k ' ') = [lab] := by
      rw [splitWS_append_ws (replicate_ws k), splitWS_tok_nil hlab hlabW]
    apply reparse_render cfg _ comment ⟨lab, [], [], comment⟩
    · intro hm
      rcases List.mem_append.mp hm with h1 | h1
      · exact hlabS h1
      · exact absurd (replicate_ws _ _ h1) (by decide)
    · exact hcom
    · have hh := @head_after_trim [] (by simp) _ hlab hlabW (List.replicate k ' ')
      rw [List.nil_append] at hh
      exact head_q_facts hlab hlabW hlabStar hlabSemi hh.1
    · rw [hsp]
      simp
    · rw [hsp]
      simp [parseTokens, hlabN hlab, emptyParsed]
    · rintro ⟨-, h, -, -⟩
      exact hlab h
    · rw [renderCode_noinst, hLk]
    · rfl
  · -- an instruction is present
    obtain ⟨hinstW, hinstS⟩ := hinstF hinstN
    have hciW := caseInstruction_wsfree hinstW cfg
    have hciS := caseInstruction_no_semi hinstS cfg
    have hciN := caseInstruction_ne_nil hinstN cfg
    have hciSemi : (caseInstruction inst cfg).head? ≠ some ';' :=
      head_ne_of_not_mem hciS
    have hciIdem := caseInstruction_idem inst cfg
    have hciTok : isInstOrDirTok (caseInstruction inst cfg) = isInstOrDirTok inst :=
      isInstOrDirTok_congr (upper_caseInstruction inst cfg)
    rcases eq_or_ne opsToks [] with hopsE | hopsN
    · -- instruction without operands
      subst hopsE
      have hC : renderCode ⟨lab, inst, joinSp [], comment⟩ cfg
          = (lab ++ List.replicate k ' ') ++ caseInstruction inst cfg := by
        rw [show joinSp ([] : List Str) = [] from rfl, renderCode_noops hinstN, hLk]
      rw [hC]
      have hCsemi : ';' ∉ (lab ++ List.replicate k ' ') ++ caseInstruction inst cfg := by
        intro hm
        rcases List.mem_append.mp hm with h1 | h1
        · rcases List.mem_append.mp h1 with h2 | h2
          · exact (hlabF (by rintro rfl; simp at h2)).2.1 h2
          · exact absurd (replicate_ws _ _ h2) (by decide)
        · exact hciS h1
      rcases eq_or_ne lab [] with hlabE2 | hlabN2
      · subst hlabE2
        rw [List.nil_append]
        rw [List.nil_append] at hCsemi
        have hsp : splitWS (List.replicate k ' ' ++ caseInstruction inst cfg)
            = [caseInstruction inst cfg] := by
          rw [splitWS_ws_append (replicate_ws k), splitWS_tok_nil hciN hciW]
        have hciStar : (caseInstruction inst cfg).head? ≠ some '*' :=
          caseInstruction_head_not (by decide) (hinstStar rfl) cfg
        apply reparse_render cfg _ comment ⟨[], caseInstruction inst cfg, [], comment⟩
        · exact hCsemi
        · exact hcom
        · have hh := head_after_trim (replicate_ws k) hciN hciW []
          rw [List.append_nil] at hh
          exact head_q_facts hciN hciW hciStar hciSemi hh.1
        · rw [hsp]
          simp
        · rw [hsp]
          simp [parseTokens, hciTok, (hlabE rfl).2, joinSp]
        · rintro ⟨-, -, h, -⟩
          exact hciN h
        · rw [renderCode_noops hciN, hciIdem, hLk, List.nil_append]
        · rfl
      · obtain ⟨hlabW, hlabS, hlabStar, hlabSemi⟩ := hlabF hlabN2
        have hrep_ne := replicate_space_ne (hk1 hlabN2)
        have hsp : splitWS ((lab ++ List.replicate k ' ') ++ caseInstruction inst cfg)
            = [lab, caseInstruction inst cfg] := by
          rw [splitWS_tok_wsapp hlabN2 hlabW hrep_ne (replicate_ws k),
            splitWS_tok_nil hciN hciW]
        apply reparse_render cfg _ comment ⟨lab, caseInstruction inst cfg, [], comment⟩
        · exact hCsemi
        · exact hcom
        · have hh := @head_after_trim [] (by simp) _ hlabN2 hlabW
            (List.replicate k ' ' ++ caseInstruction inst cfg)
          rw [List.nil_append, ← List.append_assoc] at hh
          exact head_q_facts hlabN2 hlabW hlabStar hlabSemi hh.1
        · rw [hsp]
          simp
        · rw [hsp]
          simp [parseTokens, hlabN hlabN2, joinSp]
        · rintro ⟨-, -, h, -⟩
          exact hciN h
        · rw [renderCode_noops hciN, hciIdem, hLk]
        · rfl
    · -- instruction with operands
      have hops2 : ∀ t ∈ opsToks, t ≠ [] ∧ ∀ c ∈ t, ¬ isWS c :=
        fun t ht => ⟨(hops t ht).1, (hops t ht).2.1⟩
      have hopsJ : joinSp opsToks ≠ [] := by
        rw [Ne, joinSp_eq_nil_iff fun t ht => (hops t ht).1]
        exact hopsN
      have hC : renderCode ⟨lab, inst, joinSp opsToks, comment⟩ cfg
          = trimEnd ((lab ++ List.replicate k ' ') ++ caseInstruction inst cfg)
            ++ ' ' :: formatOperands (joinSp opsToks) cfg := by
        rw [renderCode_ops hinstN hopsJ, hLk]
      have htf2 : trimEnd ((lab ++ List.replicate k ' ') ++ caseInstruction inst cfg)
          = (lab ++ List.replicate k ' ') ++ caseInstruction inst cfg := by
        rw [trimEnd_append_nonws (by rw [trimEnd_nonws hciW]; exact hciN),
          trimEnd_nonws hciW]
      rw [hC, htf2]
      have hRsemi : ';' ∉ formatOperands (joinSp opsToks) cfg :=
        formatOperands_no_semi (joinSp_no_semi fun t ht => (hops t ht).2.2) cfg
      have hsplitR : splitWS (formatOperands (joinSp opsToks) cfg)
          = if cfg.spaceAfterComma = true then splitAll opsToks else opsToks :=
        splitWS_formatOperands hops2 cfg
      have hops2' : ∀ t ∈ (if cfg.spaceAfterComma = true
          then splitAll opsToks else opsToks), t ≠ [] ∧ ∀ c ∈ t, ¬ isWS c := by
        split_ifs
        · exact splitAll_facts hops2
        · exact hops2
      have hopsN' : (if cfg.spaceAfterComma = true
          then splitAll opsToks else opsToks) ≠ [] := by
        split_ifs
        · exact splitAll_ne_nil hopsN fun t ht => (hops2 t ht).1
        · exact hopsN
      have hopsJ' : joinSp (if cfg.spaceAfterComma = true
          then splitAll opsToks else opsToks) ≠ [] := by
        rw [Ne, joinSp_eq_nil_iff fun t ht => (hops2' t ht).1]
        exact hopsN'
      have hfor := formatOperands_reparse hops2 cfg
      have hCsemi : ';' ∉ (lab ++ List.replicate k ' ') ++ caseInstruction inst cfg
          ++ ' ' :: formatOperands (joinSp opsToks) cfg := by
        intro hm
        rcases List.mem_append.mp hm with h1 | h1
        · rcases List.mem_append.mp h1 with h2 | h2
          · rcases List.mem_append.mp h2 with h3 | h3
            · exact (hlabF (by rintro rfl; simp at h3)).2.1 h3
            · exact absurd (replicate_ws _ _ h3) (by decide)
          · exact hciS h2
        · rcases List.mem_cons.mp h1 with h3 | h3
          · exact absurd h3 (by decide)
          · exact hRsemi h3
      rcases eq_or_ne lab [] with hlabE2 | hlabN2
      · subst hlabE2
        rw [List.nil_append]
        rw [List.nil_append] at hCsemi
        have hsp : splitWS (List.replicate k ' ' ++ caseInstruction inst cfg
            ++ ' ' :: formatOperands (joinSp opsToks) cfg)
            = caseInstruction inst cfg :: (if cfg.spaceAfterComma = true
                then splitAll opsToks else opsToks) := by
          rw [List.append_assoc, splitWS_ws_append (replicate_ws k),
            splitWS_tok_space hciN hciW, hsplitR]
        have hciStar : (caseInstruction inst cfg).head? ≠ some '*' :=
          caseInstruction_head_not (by decide) (hinstStar rfl) cfg
        apply reparse_render cfg _ comment ⟨[], caseInstruction inst cfg,
          joinSp (if cfg.spaceAfterComma = true then splitAll opsToks else opsToks),
          comment⟩
        · exact hCsemi
        · exact hcom
        · rw [List.append_assoc]
          have hh := head_after_trim (replicate_ws k) hciN hciW
            (' ' :: formatOperands (joinSp opsToks) cfg)
          exact head_q_facts hciN hciW hciStar hciSemi hh.1
        · rw [hsp]
          simp
        · rw [hsp]
          simp [parseTokens, hciTok, (hlabE rfl).2]
        · rintro ⟨-, -, h, -⟩
          exact hciN h
        · rw [renderCode_ops hciN hopsJ', hciIdem, hLk, hfor, htf2, List.nil_append]
        · rfl
      · obtain ⟨hlabW, hlabS, hlabStar, hlabSemi⟩ := hlabF hlabN2
        have hrep_ne := replicate_space_ne (hk1 hlabN2)
        have hsp : splitWS ((lab ++ List.replicate k ' ') ++ caseInstruction inst cfg
            ++ ' ' :: formatOperands (joinSp opsToks) cfg)
            = lab :: caseInstruction inst cfg :: (if cfg.spaceAfterComma = true
                then splitAll opsToks else opsToks) := by
          rw [List.append_assoc, splitWS_tok_wsapp hlabN2 hlabW hrep_ne (replicate_ws k),
            splitWS_tok_space hciN hciW, hsplitR]
        apply reparse_render cfg _ comment ⟨lab, caseInstruction inst cfg,
          joinSp (if cfg.spaceAfterComma = true then splitAll opsToks else opsToks),
          comment⟩
        · exact hCsemi
        · exact hcom
        · have hh := @head_after_trim [] (by simp) _ hlabN2 hlabW
            (List.replicate k ' ' ++ (caseInstruction inst cfg
              ++ ' ' :: formatOperands (joinSp opsToks) cfg))
          rw [List.nil_append, ← List.append_assoc, ← List.append_assoc] at hh
          exact head_q_facts hlabN2 hlabW hlabStar hlabSemi hh.1
        · rw [hsp]
          simp
        · rw [hsp]
          simp [parseTokens, hlabN hlabN2]
        · rintro ⟨-, -, h, -⟩
          exact hciN h
        · rw [renderCode_ops hciN hopsJ', hciIdem, hLk, hfor, htf2]
        · rfl

/-! ### Identifying the parse path of a non-blank line -/

theorem splitWS_eq_nil {x : Str} (h : splitWS x = []) : ∀ c ∈ x, isWS c := by
  induction x using splitWS.induct with
  | case1 => simp
  | case2 c cs hws ih =>
    rw [splitWS_cons_ws hws] at h
    intro d hd
    rcases List.mem_cons.mp hd with rfl | hd2
    · exact hws
    · exact ih h d hd2
  | case3 c cs hws ih =>
    rw [splitWS_cons_nonws hws] at h
    exact absurd h (by simp)

theorem trimStart_ne_nil {line : Str} (h : trim line ≠ []) : trimStart line ≠ [] := by
  intro hnil
  apply h
  rw [trim, hnil]
  rfl

theorem trim_head_cons {y : Str} (h : trim y ≠ []) :
    ∃ c u, trimStart y = c :: u ∧ ¬ isWS c ∧ trim y = c :: trimEnd u := by
  cases hts : trimStart y with
  | nil => exact absurd (by rw [trim, hts]; rfl) h
  | cons c u =>
    have hc : ¬ isWS c := trimStart_head_not (by rw [hts]; rfl)
    exact ⟨c, u, rfl, hc, by rw [trim, hts, trimEnd_cons_nonws hc]⟩

theorem head_trimStart_trimEnd (y : Str) :
    (trimStart (trimEnd y)).head? = (trimStart y).head? := by
  rw [trimStart_trimEnd_comm]
  cases hts : trimStart y with
  | nil => rfl
  | cons c u =>
    have hc : ¬ isWS c := trimStart_head_not (by rw [hts]; rfl)
    rw [trimEnd_cons_nonws hc]
    rfl

theorem no_blankcode {line : Str} (hblank : trim line ≠ [])
    (hcond : ¬ ((trimStart line).head? = some '*' ∨ (trimStart line).head? = some ';')) :
    trim (trimEnd (beforeSemi line)) ≠ [] := by
  obtain ⟨c, u, hts, hc, -⟩ := trim_head_cons hblank
  have hcsemi : (trimStart line).head? ≠ some ';' := fun h => hcond (Or.inr h)
  have hhead : (trimStart (beforeSemi line)).head? = some c := by
    rw [trimStart_beforeSemi_head hcsemi, hts]
    rfl
  have hcmem : c ∈ beforeSemi line := by
    apply trimStart_subset
    cases hbs : trimStart (beforeSemi line) with
    | nil => rw [hbs] at hhead; exact absurd hhead (by simp)
    | cons d v =>
      rw [hbs] at hhead
      simp only [List.head?_cons, Option.some.injEq] at hhead
      rw [← hhead]
      exact List.mem_cons_self d v
  have hcmem2 : c ∈ trimEnd (beforeSemi line) := by
    obtain ⟨w, hw, hdec⟩ := trimEnd_decomp (beforeSemi line)
    rw [hdec] at hcmem
    rcases List.mem_append.mp hcmem with h1 | h1
    · exact h1
    · exact absurd (hw c h1) hc
  intro hnil
  exact hc ((trim_eq_nil_iff _).mp hnil c hcmem2)

/-! ### Re-formatting whole-comment outputs -/

theorem formatLine_comment_str {com : Str} (cfg : FormatConfig)
    (hc : com.head? = some '*' ∨ com.head? = some ';') :
    formatLine com cfg = com := by
  obtain ⟨c0, u, rfl⟩ : ∃ c0 u, com = c0 :: u := by
    cases com with
    | nil => rcases hc with h | h <;> exact absurd h (by simp)
    | cons c0 u => exact ⟨c0, u, rfl⟩
  have hc0 : c0 = '*' ∨ c0 = ';' := by
    rcases hc with h | h <;> simp only [List.head?_cons, Option.some.injEq] at h
    · exact Or.inl h
    · exact Or.inr h
  have hnws : ¬ isWS c0 := by
    rcases hc0 with rfl | rfl <;> decide
  have hts : trimStart (c0 :: u) = c0 :: u := trimStart_cons_nonws hnws u
  have hcond : (trimStart (c0 :: u)).head? = some '*'
      ∨ (trimStart (c0 :: u)).head? = some ';' := by
    rw [hts]
    exact hc
  have hpl : parseLine (c0 :: u) = { emptyParsed with comment := c0 :: u } := by
    rw [parseLine_comment_branch hcond, hts]
  have hblank : trim (c0 :: u) ≠ [] := by
    rw [trim, hts, trimEnd_cons_nonws hnws]
    simp
  rw [formatLine_whole_comment cfg hblank (by rw [hpl]; exact ⟨by simp, rfl, rfl, rfl⟩),
    if_pos hts, hpl]

theorem formatLine_padded_comment {com : Str} (cfg : FormatConfig)
    (hc : com.head? = some '*' ∨ com.head? = some ';') :
    formatLine (padEnd [] cfg.commentColumn ++ com) cfg
      = padEnd [] cfg.commentColumn ++ com := by
  have hwpad : ∀ c ∈ padEnd [] cfg.commentColumn, isWS c := by
    intro c hcm
    rw [padEnd, List.nil_append] at hcm
    rw [List.eq_of_mem_replicate hcm]
    rfl
  obtain ⟨c0, u, hcu⟩ : ∃ c0 u, com = c0 :: u := by
    cases com with
    | nil => rcases hc with h | h <;> exact absurd h (by simp)
    | cons c0 u => exact ⟨c0, u, rfl⟩
  have hnws : ¬ isWS c0 := by
    have : c0 = '*' ∨ c0 = ';' := by
      rcases hc with h | h <;> rw [hcu] at h <;>
        simp only [List.head?_cons, Option.some.injEq] at h
      · exact Or.inl h
      · exact Or.inr h
    rcases this with rfl | rfl <;> decide
  have hts : trimStart (padEnd [] cfg.commentColumn ++ com) = com := by
    rw [trimStart_ws_append hwpad, hcu, trimStart_cons_nonws hnws]
  have hcond : (trimStart (padEnd [] cfg.commentColumn ++ com)).head? = some '*'
      ∨ (trimStart (padEnd [] cfg.commentColumn ++ com)).head? = some ';' := by
    rw [hts]
    exact hc
  have hpl : parseLine (padEnd [] cfg.commentColumn ++ com)
      = { emptyParsed with comment := com } := by
    rw [parseLine_comment_branch hcond, hts]
  have hblank : trim (padEnd [] cfg.commentColumn ++ com) ≠ [] := by
    rw [trim, hts, hcu, trimEnd_cons_nonws hnws]
    simp
  rw [formatLine_whole_comment cfg hblank
    (by rw [hpl]; exact ⟨by rw [hcu]; simp, rfl, rfl, rfl⟩), hpl]
  split_ifs with hself
  · calc ({ emptyParsed with comment := com } : ParsedLine).comment
        = com := rfl
      _ = trimStart (padEnd [] cfg.commentColumn ++ com) := hts.symm
      _ = padEnd [] cfg.commentColumn ++ com := hself
  · rfl

/-! ### Idempotence of the per-line formatter -/

theorem formatLine_idem (line : Str) (cfg : FormatConfig) :
    formatLine (formatLine line cfg) cfg = formatLine line cfg := by
  by_cases hblank : trim line = []
  · rw [formatLine_blank hblank, formatLine_blank (show trim ([] : Str) = [] from rfl)]
  · by_cases hshape : (parseLine line).comment ≠ [] ∧ (parseLine line).label = []
        ∧ (parseLine line).instruction = [] ∧ (parseLine line).operands = []
    · -- whole-comment line
      have hcond : (trimStart line).head? = some '*'
          ∨ (trimStart line).head? = some ';' := by
        by_contra hcond
        have hcode := no_blankcode hblank hcond
        have hpl := parseLine_code hcond hcode
        cases htk : splitWS (trim (trimEnd (beforeSemi line))) with
        | nil =>
          obtain ⟨c, u, hts, hc, htr⟩ := trim_head_cons hcode
          exact hc (splitWS_eq_nil (by rw [splitWS_trim] at htk; exact htk) c
            (trimStart_subset (by rw [hts]; exact List.mem_cons_self c u)))
        | cons t0 rest =>
          rw [htk] at hpl
          obtain ⟨-, hlab, hinst, -⟩ := hshape
          rw [hpl] at hlab hinst
          cases h0 : isInstOrDirTok t0 with
          | true =>
            rw [show (parseTokens (t0 :: rest) (lineComment line)).instruction = t0 from
              by simp [parseTokens, h0]] at hinst
            have ht0 := (splitWS_facts t0 (htk ▸ List.mem_cons_self t0 rest)).1
            exact ht0 hinst
          | false =>
            have ht0 := (splitWS_facts t0 (htk ▸ List.mem_cons_self t0 rest)).1
            apply ht0
            rw [← hlab]
            cases rest with
            | nil => simp [parseTokens, h0]
            | cons t1 rest2 => simp [parseTokens, h0]
      have hpl := parseLine_comment_branch hcond
      have hplc : (parseLine line).comment = trimStart line := by rw [hpl]
      have hc : (trimStart line).head? = some '*'
          ∨ (trimStart line).head? = some ';' := hcond
      rw [formatLine_whole_comment cfg hblank hshape, hplc]
      split_ifs with hts
      · rw [hts] at hc ⊢
        exact formatLine_comment_str cfg hc
      · exact formatLine_padded_comment cfg hc
    · -- main path
      have hcond : ¬ ((trimStart line).head? = some '*'
          ∨ (trimStart line).head? = some ';') := by
        intro hcond
        apply hshape
        rw [parseLine_comment_branch hcond]
        refine ⟨?_, rfl, rfl, rfl⟩
        show trimStart line ≠ []
        exact trimStart_ne_nil hblank
      have hcode := no_blankcode hblank hcond
      have hpl := parseLine_code hcond hcode
      obtain ⟨c1, u1, hts1, hnws1, -⟩ := trim_head_cons hblank
      have hc1star : c1 ≠ '*' := fun h => hcond (Or.inl (by rw [hts1, h]; rfl))
      have hc1semi : c1 ≠ ';' := fun h => hcond (Or.inr (by rw [hts1, h]; rfl))
      cases htk : splitWS (trim (trimEnd (beforeSemi line))) with
      | nil =>
        obtain ⟨c, u, hts, hc, -⟩ := trim_head_cons hcode
        exact absurd (splitWS_eq_nil (by rw [splitWS_trim] at htk; exact htk) c
          (trimStart_subset (by rw [hts]; exact List.mem_cons_self c u))) hc
      | cons t0 rest =>
        rw [htk] at hpl
        have hfacts : ∀ t ∈ t0 :: rest, t ≠ [] ∧ (∀ c ∈ t, ¬ isWS c) ∧ ';' ∉ t := by
          intro t ht
          obtain ⟨h1, h2, h3⟩ := splitWS_facts t (htk ▸ ht)
          refine ⟨h1, h2, fun hm => ?_⟩
          exact beforeSemi_not_mem line (trimEnd_subset (trim_subset (h3 _ hm)))
        have ht0head : t0.head? = some c1 := by
          rw [splitWS_head htk, head_trimStart_trim, head_trimStart_trimEnd,
            trimStart_beforeSemi_head (fun h => hcond (Or.inr h)), hts1]
          rfl
        have ht0star : t0.head? ≠ some '*' := by
          rw [ht0head]
          simp [hc1star]
        have ht0semi : t0.head? ≠ some ';' := by
          rw [ht0head]
          simp [hc1semi]
        have hcom := lineComment_spec line
        have hcom2 : lineComment line = []
            ∨ ((lineComment line).head? = some ';'
              ∧ trimEnd (lineComment line) = lineComment line
              ∧ lineComment line ≠ []) := hcom
        rw [formatLine_main cfg hblank hshape]
        cases h0 : isInstOrDirTok t0 with
        | true =>
          have hpt : parseLine line
              = ⟨[], t0, joinSp rest, lineComment line⟩ := by
            rw [hpl]
            simp [parseTokens, h0]
          rw [hpt]
          exact reformat_fixed cfg [] t0 (lineComment line) rest
            (fun _ => ⟨(hfacts t0 (List.mem_cons_self t0 rest)).1, h0⟩)
            (fun h => absurd rfl h)
            (fun h => absurd rfl h)
            (fun _ => ⟨(hfacts t0 (List.mem_cons_self t0 rest)).2.1,
              (hfacts t0 (List.mem_cons_self t0 rest)).2.2⟩)
            (fun _ => ht0star)
            (fun h => absurd h (hfacts t0 (List.mem_cons_self t0 rest)).1)
            (fun t ht => hfacts t (List.mem_cons_of_mem t0 ht))
            hcom2
        | false =>
          cases rest with
          | nil =>
            have hpt : parseLine line = ⟨t0, [], [], lineComment line⟩ := by
              rw [hpl]
              simp [parseTokens, h0, emptyParsed]
            rw [hpt]
            have hfix := reformat_fixed cfg t0 [] (lineComment line) []
              (fun h => absurd h (hfacts t0 (List.mem_cons_self t0 [])).1)
              (fun _ => h0)
              (fun _ => ⟨(hfacts t0 (List.mem_cons_self t0 [])).2.1,
                (hfacts t0 (List.mem_cons_self t0 [])).2.2, ht0star, ht0semi⟩)
              (fun h => absurd rfl h)
              (fun h => absurd h (hfacts t0 (List.mem_cons_self t0 [])).1)
              (fun _ => rfl)
              (by simp)
              hcom2
            exact hfix
          | cons t1 rest2 =>
            have hpt : parseLine line
                = ⟨t0, t1, joinSp rest2, lineComment line⟩ := by
              rw [hpl]
              simp [parseTokens, h0]
            rw [hpt]
            exact reformat_fixed cfg t0 t1 (lineComment line) rest2
              (fun h => absurd h (hfacts t0 (List.mem_cons_self t0 _)).1)
              (fun _ => h0)
              (fun _ => ⟨(hfacts t0 (List.mem_cons_self t0 _)).2.1,
                (hfacts t0 (List.mem_cons_self t0 _)).2.2, ht0star, ht0semi⟩)
              (fun _ => ⟨(hfacts t1 (List.mem_cons_of_mem t0
                  (List.mem_cons_self t1 rest2))).2.1,
                (hfacts t1 (List.mem_cons_of_mem t0
                  (List.mem_cons_self t1 rest2))).2.2⟩)
              (fun h => absurd h (hfacts t0 (List.mem_cons_self t0 _)).1)
              (fun h => absurd h (hfacts t1 (List.mem_cons_of_mem t0
                (List.mem_cons_self t1 rest2))).1)
              (fun t ht => hfacts t (List.mem_cons_of_mem t0
                (List.mem_cons_of_mem t1 ht)))
              hcom2


/-! ### The computation forms agree with the modelled functions -/

theorem splitWSA_eq (s : Str) :
    (splitWSA [] s = splitWS s) ∧
    (∀ acc, acc ≠ [] → splitWSA acc s
      = (acc.reverse ++ s.takeWhile (fun d => !isWS d))
        :: splitWS (s.dropWhile (fun d => !isWS d))) := by
  induction s with
  | nil =>
    refine ⟨by rw [splitWS_nil]; rfl, ?_⟩
    intro acc hacc
    simp [splitWSA, List.isEmpty_iff, hacc, splitWS_nil]
  | cons c cs ih =>
    obtain ⟨ihA, ihB⟩ := ih
    by_cases hws : isWS c
    · refine ⟨?_, ?_⟩
      · rw [show splitWSA [] (c :: cs) = splitWSA [] cs from by simp [splitWSA, hws],
          ihA, splitWS_cons_ws hws]
      · intro acc hacc
        rw [show splitWSA acc (c :: cs) = acc.reverse :: splitWSA [] cs from by
            simp [splitWSA, hws, List.isEmpty_iff, hacc],
          ihA, List.takeWhile_cons, if_neg (by simp [hws]), List.dropWhile_cons,
          if_neg (by simp [hws]), List.append_nil, splitWS_cons_ws hws]
    · refine ⟨?_, ?_⟩
      · rw [show splitWSA [] (c :: cs) = splitWSA [c] cs from by simp [splitWSA, hws],
          ihB [c] (by simp), splitWS_cons_nonws hws]
        simp
      · intro acc hacc
        rw [show splitWSA acc (c :: cs) = splitWSA (c :: acc) cs from by
            simp [splitWSA, hws],
          ihB (c :: acc) (by simp), List.takeWhile_cons, if_pos (by simp [hws]),
          List.dropWhile_cons, if_pos (by simp [hws])]
        simp

theorem splitWS_exec (s : Str) : splitWS s = splitWSA [] s := ((splitWSA_eq s).1).symm

theorem replStarA_eq (s : Str) :
    (replStarA false s = replStar s) ∧
    (replStarA true s = replStar (s.dropWhile isWS)) := by
  induction s with
  | nil => exact ⟨by simp [replStarA, replStar_nil], by simp [replStarA, replStar_nil]⟩
  | cons c cs ih =>
    obtain ⟨ihF, ihT⟩ := ih
    by_cases hc : c = ','
    · subst hc
      refine ⟨?_, ?_⟩
      · rw [show replStarA false (',' :: cs) = ',' :: ' ' :: replStarA true cs from by
            rw [replStarA, if_neg (by decide), if_pos rfl],
          ihT, replStar_comma]
      · rw [show replStarA true (',' :: cs) = ',' :: ' ' :: replStarA true cs from by
            rw [replStarA, if_neg (by decide), if_pos rfl],
          ihT, dropWhile_ws_head (by decide) cs, replStar_comma]
    · by_cases hws : isWS c
      · refine ⟨?_, ?_⟩
        · rw [show replStarA false (c :: cs) = c :: replStarA false cs from by
              rw [replStarA, if_neg (by simp), if_neg hc],
            ihF, replStar_cons hc]
        · rw [show replStarA true (c :: cs) = replStarA true cs from by
              rw [replStarA, if_pos (by simp [hws])],
            ihT, List.dropWhile_cons, if_pos (by simpa using hws)]
      · refine ⟨?_, ?_⟩
        · rw [show replStarA false (c :: cs) = c :: replStarA false cs from by
              rw [replStarA, if_neg (by simp), if_neg hc],
            ihF, replStar_cons hc]
        · rw [show replStarA true (c :: cs) = c :: replStarA false cs from by
              rw [replStarA, if_neg (by simp [hws]), if_neg hc],
            ihF, dropWhile_ws_head hws, replStar_cons hc]

theorem replStar_exec (s : Str) : replStar s = replStarA false s :=
  ((replStarA_eq s).1).symm

theorem replPlus_cons_cons {c d : Char} (cs : Str) :
    replPlus (c :: d :: cs)
      = if c = ',' ∧ isWS d then ',' :: ' ' :: replPlus ((d :: cs).dropWhile isWS)
        else c :: replPlus (d :: cs) := by
  rw [replPlus.eq_3]

theorem replPlusA_eq (s : Str) :
    (replPlusA false s = replPlus s) ∧
    (replPlusA true s = replPlus (s.dropWhile isWS)) := by
  induction s with
  | nil =>
    exact ⟨by rw [replPlus.eq_1]; rfl,
      by rw [show List.dropWhile isWS ([] : Str) = [] from rfl, replPlus.eq_1]; rfl⟩
  | cons c cs ih =>
    obtain ⟨ihF, ihT⟩ := ih
    have hmain : replPlusA false (c :: cs) = replPlus (c :: cs) := by
      by_cases hcd : c = ',' ∧ headWS cs = true
      · obtain ⟨d, ds, rfl⟩ : ∃ d ds, cs = d :: ds := by
          cases cs with
          | nil => exact absurd hcd.2 (by simp [headWS])
          | cons d ds => exact ⟨d, ds, rfl⟩
        have hd : isWS d := by simpa [headWS] using hcd.2
        rw [show replPlusA false (c :: d :: ds) = ',' :: ' ' :: replPlusA true (d :: ds)
            from by rw [replPlusA, if_neg (by simp),
              if_pos (by simp [hcd.1, headWS, hd])],
          ihT, replPlus_cons_cons, if_pos ⟨hcd.1, hd⟩]
      · have hA : replPlusA false (c :: cs) = c :: replPlusA false cs := by
          rw [replPlusA, if_neg (by simp), if_neg]
          simp only [Bool.and_eq_true, decide_eq_true_eq]
          exact hcd
        rw [hA, ihF]
        cases cs with
        | nil => rw [replPlus, replPlus]
        | cons d ds =>
          rw [replPlus_cons_cons, if_neg]
          intro hcon
          exact hcd ⟨hcon.1, by simp [headWS, hcon.2]⟩
    refine ⟨hmain, ?_⟩
    by_cases hws : isWS c
    · rw [show replPlusA true (c :: cs) = replPlusA true cs from by
          rw [replPlusA, if_pos (by simp [hws])],
        ihT, List.dropWhile_cons, if_pos (by simpa using hws)]
    · have hT1 : replPlusA true (c :: cs)
          = if c = ',' && headWS cs then ',' :: ' ' :: replPlusA true cs
            else c :: replPlusA false cs := by
        rw [replPlusA, if_neg (by simp [hws])]
      have hT2 : replPlusA false (c :: cs)
          = if c = ',' && headWS cs then ',' :: ' ' :: replPlusA true cs
            else c :: replPlusA false cs := by
        rw [replPlusA, if_neg (by simp)]
      rw [hT1, ← hT2, hmain, dropWhile_ws_head hws]

theorem replPlus_exec (s : Str) : replPlus s = replPlusA false s :=
  ((replPlusA_eq s).1).symm

theorem parseLineE_eq (line : Str) : parseLine line = parseLineE line := by
  simp only [parseLine, parseLineE, splitWS_exec]

theorem formatOperandsE_eq (ops : Str) (cfg : FormatConfig) :
    formatOperands ops cfg = formatOperandsE ops cfg := by
  simp only [formatOperands, formatOperandsE, replStar_exec, replPlus_exec]

theorem renderCodeE_eq (p : ParsedLine) (cfg : FormatConfig) :
    renderCode p cfg = renderCodeE p cfg := by
  simp only [renderCode, renderCodeE, formatOperandsE_eq]

theorem formatLineE_eq (line : Str) (cfg : FormatConfig) :
    formatLine line cfg = formatLineE line cfg := by
  simp only [formatLine, formatLineE, parseLineE_eq, renderCodeE_eq]


/-! ### Facts about parse results used by the claims -/

theorem parseLine_blank {line : Str} (h : trim line = []) :
    parseLine line = emptyParsed := by
  have hall : ∀ c ∈ line, isWS c := (trim_eq_nil_iff line).mp h
  have hts : trimStart line = [] := List.dropWhile_eq_nil_iff.mpr hall
  have hsemi : ';' ∉ line := fun hm => absurd (hall _ hm) (by decide)
  have hcode : trim (trimEnd (beforeSemi line)) = [] := by
    rw [trim_eq_nil_iff]
    intro c hc
    exact hall c (beforeSemi_subset (trimEnd_subset hc))
  rw [parseLine_blankcode (by rw [hts]; simp) hcode, lineComment,
    not_hasSemi_of_not_mem hsemi]
  rfl

theorem parseTokens_comment (toks : List Str) (comment : Str) :
    (parseTokens toks comment).comment = comment := by
  cases toks with
  | nil => rfl
  | cons t0 rest =>
    by_cases h : isInstOrDirTok t0 = true
    · simp [parseTokens, h]
    · cases rest with
      | nil => simp [parseTokens, h]
      | cons t1 rest2 => simp [parseTokens, h]

theorem parseLine_fields (line : Str) :
    ((parseLine line).label = [] ∧ (parseLine line).instruction = []
      ∧ (parseLine line).operands = [])
    ∨ (parseLine line).comment = lineComment line := by
  by_cases h1 : (trimStart line).head? = some '*' ∨ (trimStart line).head? = some ';'
  · rw [parseLine_comment_branch h1]
    exact Or.inl ⟨rfl, rfl, rfl⟩
  · by_cases h2 : trim (trimEnd (beforeSemi line)) = []
    · rw [parseLine_blankcode h1 h2]
      exact Or.inr rfl
    · rw [parseLine_code h1 h2]
      exact Or.inr (parseTokens_comment _ _)

theorem parseTokens_label (toks : List Str) (comment : Str) :
    (parseTokens toks comment).label = []
    ∨ isInstOrDirTok (parseTokens toks comment).label = false := by
  cases toks with
  | nil => exact Or.inl rfl
  | cons t0 rest =>
    by_cases h : isInstOrDirTok t0 = true
    · exact Or.inl (by simp [parseTokens, h])
    · have hf : isInstOrDirTok t0 = false := by simpa using h
      cases rest with
      | nil => exact Or.inr (by simp [parseTokens, h, hf])
      | cons t1 rest2 => exact Or.inr (by simp [parseTokens, h, hf])

theorem parseLine_label_tok (line : Str) :
    (parseLine line).label = [] ∨ isInstOrDirTok (parseLine line).label = false := by
  by_cases h1 : (trimStart line).head? = some '*' ∨ (trimStart line).head? = some ';'
  · rw [parseLine_comment_branch h1]
    exact Or.inl rfl
  · by_cases h2 : trim (trimEnd (beforeSemi line)) = []
    · rw [parseLine_blankcode h1 h2]
      exact Or.inl rfl
    · rw [parseLine_code h1 h2]
      exact parseTokens_label _ _

theorem parseTokens_inst (toks : List Str) (comment : Str) :
    (parseTokens toks comment).instruction = []
    ∨ (parseTokens toks comment).instruction ∈ toks := by
  cases toks with
  | nil => exact Or.inl rfl
  | cons t0 rest =>
    by_cases h : isInstOrDirTok t0 = true
    · have hi : (parseTokens (t0 :: rest) comment).instruction = t0 := by
        simp [parseTokens, h]
      rw [hi]
      exact Or.inr (List.mem_cons_self t0 rest)
    · cases rest with
      | nil => exact Or.inl (by simp [parseTokens, h, emptyParsed])
      | cons t1 rest2 =>
        have hi : (parseTokens (t0 :: t1 :: rest2) comment).instruction = t1 := by
          simp [parseTokens, h]
        rw [hi]
        exact Or.inr (List.mem_cons_of_mem t0 (List.mem_cons_self t1 rest2))

theorem parseLine_inst_wsfree (line : Str) :
    ∀ c ∈ (parseLine line).instruction, ¬ isWS c := by
  by_cases h1 : (trimStart line).head? = some '*' ∨ (trimStart line).head? = some ';'
  · rw [parseLine_comment_branch h1]
    simp [emptyParsed]
  · by_cases h2 : trim (trimEnd (beforeSemi line)) = []
    · rw [parseLine_blankcode h1 h2]
      simp [emptyParsed]
    · rw [parseLine_code h1 h2]
      rcases parseTokens_inst (splitWS (trim (trimEnd (beforeSemi line))))
          (lineComment line) with h | h
      · rw [h]
        simp
      · exact fun c hc => (splitWS_facts _ h).2.1 c hc

theorem trimStart_eq_self_iff (line : Str) :
    trimStart line = line ↔ ∀ c, line.head? = some c → ¬ isWS c := by
  constructor
  · intro h c hc
    cases line with
    | nil => simp at hc
    | cons d ds =>
      simp only [List.head?_cons, Option.some.injEq] at hc
      subst hc
      intro hws
      rw [trimStart_cons_ws hws] at h
      have hlen := congrArg List.length h
      have h2 := trimStart_length_le ds
      simp at hlen
      omega
  · intro h
    cases line with
    | nil => rfl
    | cons d ds => exact trimStart_cons_nonws (h d rfl) ds

/-! ### The rendered line keeps an uncased instruction token -/

theorem trimEnd_ext (A inst : Str) (hi : trimEnd inst = inst) (hne : inst ≠ [])
    (Y : Str) : ∃ Y2, trimEnd ((A ++ inst) ++ Y) = (A ++ inst) ++ Y2 := by
  rw [trimEnd_append]
  split_ifs with h
  · exact ⟨[], by rw [trimEnd_append_nonws (by rw [hi]; exact hne), hi,
      List.append_nil]⟩
  · exact ⟨trimEnd Y, rfl⟩

theorem render_contains (p : ParsedLine) (cfg : FormatConfig)
    (hinst : p.instruction ≠ []) (hwf : ∀ c ∈ p.instruction, ¬ isWS c)
    (hcase : caseInstruction p.instruction cfg = p.instruction) :
    ∃ pre suf, trimEnd (placeComment (renderCode p cfg) p.comment cfg)
      = (pre ++ p.instruction) ++ suf := by
  have hi : trimEnd p.instruction = p.instruction := trimEnd_nonws hwf
  have key : ∀ Z : Str, (∃ Y, Z = (labelField p.label cfg ++ p.instruction) ++ Y) →
      ∃ Y, trimEnd Z = (labelField p.label cfg ++ p.instruction) ++ Y := by
    rintro Z ⟨Y, rfl⟩
    exact trimEnd_ext _ _ hi hinst Y
  have app : ∀ Z W : Str,
      (∃ Y, Z = (labelField p.label cfg ++ p.instruction) ++ Y) →
      ∃ Y, Z ++ W = (labelField p.label cfg ++ p.instruction) ++ Y := by
    rintro Z W ⟨Y, rfl⟩
    exact ⟨Y ++ W, by rw [List.append_assoc]⟩
  have hCdec : ∃ Y, renderCode p cfg
      = (labelField p.label cfg ++ p.instruction) ++ Y := by
    rw [renderCode_eq, if_pos hinst]
    split_ifs with hops
    · rw [hcase, trimEnd_append_nonws (by rw [hi]; exact hinst), hi]
      exact ⟨' ' :: formatOperands p.operands cfg, rfl⟩
    · rw [hcase]
      exact ⟨[], (List.append_nil _).symm⟩
  rw [placeComment]
  split_ifs with hcom hlen
  · obtain ⟨Y3, hY3⟩ := key _ (app _ _
      (show ∃ Y, padEnd (trimEnd (renderCode p cfg)) cfg.commentColumn
          = (labelField p.label cfg ++ p.instruction) ++ Y from by
        rw [padEnd]
        exact app _ _ (key _ hCdec)))
    exact ⟨labelField p.label cfg, Y3, hY3⟩
  · obtain ⟨Y3, hY3⟩ := key _ (app _ _ (key _ hCdec))
    exact ⟨labelField p.label cfg, Y3, hY3⟩
  · obtain ⟨Y3, hY3⟩ := key _ hCdec
    exact ⟨labelField p.label cfg, Y3, hY3⟩

/-! ### Characterising the document driver -/

theorem runLoop_spec (cfg : FormatConfig) :
    ∀ (ls : List Str) (i K : Nat), K ≤ i + ls.length →
      runLoop cfg K i ls = (List.range (K - i)).filterMap
        (fun j =>
          if formatLine (ls.getD j []) cfg = ls.getD j [] then none
          else some (i + j, formatLine (ls.getD j []) cfg)) := by
  intro ls
  induction ls with
  | nil =>
    intro i K hK
    simp only [List.length_nil, Nat.add_zero] at hK
    rw [show K - i = 0 from by omega]
    rfl
  | cons l ls2 ih =>
    intro i K hK
    by_cases hKi : K ≤ i
    · rw [show runLoop cfg K i (l :: ls2) = [] from by rw [runLoop, if_pos hKi],
        show K - i = 0 from by omega]
      rfl
    · obtain ⟨m, hm⟩ : ∃ m, K - i = m + 1 := ⟨K - i - 1, by omega⟩
      have hm2 : K - (i + 1) = m := by omega
      have hK2 : K ≤ i + 1 + ls2.length := by
        simp only [List.length_cons] at hK
        omega
      have hfun : ((fun j =>
          if formatLine ((l :: ls2).getD j []) cfg = (l :: ls2).getD j [] then none
          else some (i + j, formatLine ((l :: ls2).getD j []) cfg)) ∘ Nat.succ)
          = (fun j =>
            if formatLine (ls2.getD j []) cfg = ls2.getD j [] then none
            else some (i + 1 + j, formatLine (ls2.getD j []) cfg)) := by
        funext j
        have hgd : (l :: ls2).getD (Nat.succ j) [] = ls2.getD j [] := rfl
        have hadd : i + Nat.succ j = i + 1 + j := by omega
        simp only [Function.comp_apply, hgd, hadd]
      rw [show runLoop cfg K i (l :: ls2)
          = (if formatLine l cfg ≠ l then [(i, formatLine l cfg)] else [])
            ++ runLoop cfg K (i + 1) ls2 from by rw [runLoop, if_neg hKi],
        ih (i + 1) K hK2, hm2, hm, List.range_succ_eq_map]
      by_cases hl : formatLine l cfg = l
      · have h0 : (fun j =>
            if formatLine ((l :: ls2).getD j []) cfg = (l :: ls2).getD j [] then none
            else some (i + j, formatLine ((l :: ls2).getD j []) cfg)) 0 = none := by
          simp [hl]
        rw [if_neg (by simpa using hl), List.nil_append,
          @List.filterMap_cons_none _ _ (fun j =>
            if formatLine ((l :: ls2).getD j []) cfg = (l :: ls2).getD j [] then none
            else some (i + j, formatLine ((l :: ls2).getD j []) cfg)) 0
            (List.map Nat.succ (List.range m)) h0,
          List.filterMap_map, hfun]
      · have h0 : (fun j =>
            if formatLine ((l :: ls2).getD j []) cfg = (l :: ls2).getD j [] then none
            else some (i + j, formatLine ((l :: ls2).getD j []) cfg)) 0
              = some (i, formatLine l cfg) := by
          simp [hl]
        rw [if_pos hl,
          @List.filterMap_cons_some _ _ (fun j =>
            if formatLine ((l :: ls2).getD j []) cfg = (l :: ls2).getD j [] then none
            else some (i + j, formatLine ((l :: ls2).getD j []) cfg)) 0
            (List.map Nat.succ (List.range m)) (i, formatLine l cfg) h0,
          List.filterMap_map, hfun, List.cons_append, List.nil_append]

theorem provideEdits_eq_expected (doc : List Str) (cfg : FormatConfig) (K : Nat)
    (h : K ≤ doc.length) :
    provideDocumentFormattingEdits doc cfg K = expectedEdits doc cfg K := by
  rw [provideDocumentFormattingEdits, runLoop_spec cfg doc 0 K (by omega),
    Nat.sub_zero, expectedEdits]
  have hfg : (fun j =>
      if formatLine (doc.getD j []) cfg = doc.getD j [] then none
      else some (0 + j, formatLine (doc.getD j []) cfg)) = editAt doc cfg := by
    funext j
    simp only [editAt, Nat.zero_add]
  rw [hfg]


/-! ### The claims -/

/-- C1: idempotence of the per-line formatter: for every raw line and every
configuration, formatting the already-formatted line yields the same string:
formatLine (formatLine L cfg) cfg = formatLine L cfg. -/
theorem claim_C1 (line : Str) (cfg : FormatConfig) :
    formatLine (formatLine line cfg) cfg = formatLine line cfg :=
  formatLine_idem line cfg

/-- C2 (as stated, refuted): under the default configuration the rendered
string for "loop mov r1,r2 ;copy" is not the claim's literal
"loop     MOV r1, r2                    ;copy" — that literal places the
';' at column 39, one short of commentColumn = 40. -/
theorem claim_C2_counterexample :
    formatLine ("loop mov r1,r2 ;copy").data defaultConfig
      ≠ ("loop     MOV r1, r2                    ;copy").data := by
  rw [formatLineE_eq]
  decide

/-- C2 (corrected): parseLine "loop mov r1,r2 ;copy" yields label "loop",
instruction "mov", operands "r1,r2", comment ";copy", and the rendered string
is "loop     MOV r1, r2" followed by 21 spaces and ";copy" — a 45-character
string whose first 40 characters are the padded code part, so ";copy" starts
at column 40 as the prose (but not the literal) of the claim says. -/
theorem claim_C2_corrected :
    parseLine ("loop mov r1,r2 ;copy").data
      = ⟨("loop").data, ("mov").data, ("r1,r2").data, (";copy").data⟩
    ∧ formatLine ("loop mov r1,r2 ;copy").data defaultConfig
      = ("loop     MOV r1, r2                     ;copy").data
    ∧ (formatLine ("loop mov r1,r2 ;copy").data defaultConfig).take 40
      = ("loop     MOV r1, r2").data ++ List.replicate 21 ' '
    ∧ (formatLine ("loop mov r1,r2 ;copy").data defaultConfig).drop 40
      = (";copy").data := by
  refine ⟨?_, ?_, ?_, ?_⟩
  · rw [parseLineE_eq]
    decide
  · rw [formatLineE_eq]
    decide
  · rw [formatLineE_eq]
    decide
  · rw [formatLineE_eq]
    decide

/-- C3: inline-comment placement: when the parse has a non-empty comment and
a non-empty label, instruction or operand field, the comment is appended to
the code part padded to exactly commentColumn characters when the trimmed
code rendering is shorter than commentColumn, and otherwise follows the
trimmed code rendering after exactly two spaces. -/
theorem claim_C3 (line : Str) (cfg : FormatConfig)
    (h1 : (parseLine line).comment ≠ [])
    (h2 : (parseLine line).label ≠ [] ∨ (parseLine line).instruction ≠ []
      ∨ (parseLine line).operands ≠ []) :
    if (trimEnd (renderCode (parseLine line) cfg)).length < cfg.commentColumn then
      formatLine line cfg
        = padEnd (trimEnd (renderCode (parseLine line) cfg)) cfg.commentColumn
          ++ (parseLine line).comment
      ∧ (padEnd (trimEnd (renderCode (parseLine line) cfg))
          cfg.commentColumn).length = cfg.commentColumn
    else
      formatLine line cfg
        = trimEnd (renderCode (parseLine line) cfg)
          ++ ' ' :: ' ' :: (parseLine line).comment := by
  have hshape : ¬ ((parseLine line).comment ≠ [] ∧ (parseLine line).label = []
      ∧ (parseLine line).instruction = [] ∧ (parseLine line).operands = []) := by
    rintro ⟨_, hl, hi, ho⟩
    rcases h2 with h | h | h
    exacts [h hl, h hi, h ho]
  have hne : ¬ ((parseLine line).label = [] ∧ (parseLine line).instruction = []
      ∧ (parseLine line).operands = []) := by
    rintro ⟨hl, hi, ho⟩
    rcases h2 with h | h | h
    exacts [h hl, h hi, h ho]
  have hblank : trim line ≠ [] := fun hb => h1 (by rw [parseLine_blank hb]; rfl)
  have hmain := formatLine_main cfg hblank hshape
  have hcomm := (parseLine_fields line).resolve_left hne
  rcases lineComment_spec line with hnil | ⟨_, htr, _⟩
  · rw [hcomm, hnil] at h1
    exact absurd rfl h1
  have hctr : trimEnd (parseLine line).comment = (parseLine line).comment := by
    rw [hcomm]
    exact htr
  split_ifs with hlen
  · constructor
    · rw [hmain, placeComment, if_pos h1, if_pos hlen,
        trimEnd_append_nonws (by rw [hctr]; exact h1), hctr]
    · rw [padEnd_length]
      omega
  · rw [hmain, placeComment, if_pos h1, if_neg hlen]
    have h2s : trimEnd (' ' :: ' ' :: (parseLine line).comment)
        = ' ' :: ' ' :: (parseLine line).comment := by
      show trimEnd ([' ', ' '] ++ (parseLine line).comment) = _
      rw [trimEnd_append_nonws (by rw [hctr]; exact h1), hctr]
      rfl
    rw [trimEnd_append_nonws (by rw [h2s]; simp), h2s]

/-- C3 witness: the placement statement instantiated at
"loop mov r1,r2 ;copy" with the default configuration. -/
theorem claim_C3_witness :
    (parseLine ("loop mov r1,r2 ;copy").data).comment ≠ []
    ∧ ((parseLine ("loop mov r1,r2 ;copy").data).label ≠ []
      ∨ (parseLine ("loop mov r1,r2 ;copy").data).instruction ≠ []
      ∨ (parseLine ("loop mov r1,r2 ;copy").data).operands ≠ [])
    ∧ (if (trimEnd (renderCode (parseLine ("loop mov r1,r2 ;copy").data)
          defaultConfig)).length < defaultConfig.commentColumn then
        formatLine ("loop mov r1,r2 ;copy").data defaultConfig
          = padEnd (trimEnd (renderCode (parseLine ("loop mov r1,r2 ;copy").data)
              defaultConfig)) defaultConfig.commentColumn
            ++ (parseLine ("loop mov r1,r2 ;copy").data).comment
        ∧ (padEnd (trimEnd (renderCode (parseLine ("loop mov r1,r2 ;copy").data)
            defaultConfig)) defaultConfig.commentColumn).length
            = defaultConfig.commentColumn
      else
        formatLine ("loop mov r1,r2 ;copy").data defaultConfig
          = trimEnd (renderCode (parseLine ("loop mov r1,r2 ;copy").data)
              defaultConfig)
            ++ ' ' :: ' ' :: (parseLine ("loop mov r1,r2 ;copy").data).comment) :=
  ⟨by rw [parseLineE_eq]; decide,
   by rw [parseLineE_eq]; decide,
   claim_C3 _ defaultConfig (by rw [parseLineE_eq]; decide)
     (by rw [parseLineE_eq]; decide)⟩

/-- C4: whole-comment line rendering: a non-blank line whose parse is pure
comment (label, instruction, operands all empty) is emitted unchanged when
the raw line starts with a non-whitespace character, and otherwise as
commentColumn spaces followed by the comment. -/
theorem claim_C4 (line : Str) (cfg : FormatConfig)
    (h1 : trim line ≠ [])
    (h2 : (parseLine line).comment ≠ [] ∧ (parseLine line).label = []
      ∧ (parseLine line).instruction = [] ∧ (parseLine line).operands = []) :
    ((∀ c, line.head? = some c → ¬ isWS c) →
      formatLine line cfg = (parseLine line).comment)
    ∧ ((∃ c, line.head? = some c ∧ isWS c) →
      formatLine line cfg
        = List.replicate cfg.commentColumn ' ' ++ (parseLine line).comment) := by
  have hfw := formatLine_whole_comment cfg h1 h2
  have hpad : padEnd ([] : Str) cfg.commentColumn
      = List.replicate cfg.commentColumn ' ' := by
    simp [padEnd]
  constructor
  · intro h
    rw [hfw, if_pos ((trimStart_eq_self_iff line).mpr h)]
  · rintro ⟨c, hc, hws⟩
    have hne : trimStart line ≠ line := fun he =>
      ((trimStart_eq_self_iff line).mp he c hc) hws
    rw [hfw, if_neg hne, hpad]

/-- C4 witness: "* full comment" is kept at column 0, and "   * padded" is
re-emitted at the default commentColumn. -/
theorem claim_C4_witness :
    (trim ("* full comment").data ≠ []
      ∧ formatLine ("* full comment").data defaultConfig
          = (parseLine ("* full comment").data).comment)
    ∧ (trim ("   * padded").data ≠ []
      ∧ formatLine ("   * padded").data defaultConfig
          = List.replicate defaultConfig.commentColumn ' '
            ++ (parseLine ("   * padded").data).comment) :=
  ⟨⟨by decide,
    (claim_C4 _ defaultConfig (by decide) (by rw [parseLineE_eq]; decide)).1
      (by decide)⟩,
   ⟨by decide,
    (claim_C4 _ defaultConfig (by decide) (by rw [parseLineE_eq]; decide)).2
      ⟨' ', by decide, by decide⟩⟩⟩

/-- C5 (as stated, refuted): with uppercaseDirectives enabled the renderer
does not substitute the uppercased form of a dot-prefixed mnemonic outside
DIRECTIVES: "  .byte 1" renders with ".byte" kept lowercase. -/
theorem claim_C5_counterexample :
    defaultConfig.uppercaseDirectives = true
    ∧ formatLine ("  .byte 1").data defaultConfig = ("         .byte 1").data
    ∧ formatLine ("  .byte 1").data defaultConfig ≠ ("         .BYTE 1").data := by
  refine ⟨rfl, ?_, ?_⟩
  · rw [formatLineE_eq]
    decide
  · rw [formatLineE_eq]
    decide

/-- C5 (corrected): the dot special case lives only in the parser's label
detection — a first token whose uppercased form starts with '.' is never
taken as a label — while the renderer's casing decision checks only set
membership, so a dot-prefixed token outside both sets is kept exactly as
written under every configuration. -/
theorem claim_C5_corrected :
    (∀ (t : Str) (rest : List Str) (comment : Str),
      (upper t).head? = some '.' →
      (parseTokens (t :: rest) comment).label = [])
    ∧ (∀ (inst : Str) (cfg : FormatConfig),
      upper inst ∉ INSTRUCTIONS → upper inst ∉ DIRECTIVES →
      caseInstruction inst cfg = inst) := by
  constructor
  · intro t rest comment hdot
    have htok : isInstOrDirTok t = true := by
      rw [isInstOrDirTok]
      simp [hdot]
    simp [parseTokens, htok]
  · intro inst cfg hni hnd
    rw [caseInstruction, if_neg (by simp [hni]), if_neg (by simp [hnd])]

/-- C5 witness: ".byte" is parsed as directive-like (no label) yet rendered
without re-casing. -/
theorem claim_C5_witness :
    ((upper (".byte").data).head? = some '.'
      ∧ (parseTokens [(".byte").data, ("1").data] []).label = [])
    ∧ (upper (".byte").data ∉ INSTRUCTIONS
      ∧ upper (".byte").data ∉ DIRECTIVES
      ∧ caseInstruction (".byte").data defaultConfig = (".byte").data) :=
  ⟨⟨by decide, claim_C5_corrected.1 (".byte").data [("1").data] [] (by decide)⟩,
   ⟨by decide, by decide,
    claim_C5_corrected.2 (".byte").data defaultConfig (by decide) (by decide)⟩⟩

/-- C6 (as stated, refuted): the output is not always free of trailing
whitespace: a whole-comment line starting at column 0 is returned unchanged,
keeping its trailing spaces — here "*x " with a trailing space. -/
theorem claim_C6_counterexample :
    trimEnd (formatLine ("*x ").data defaultConfig)
      ≠ formatLine ("*x ").data defaultConfig := by
  rw [formatLineE_eq]
  decide

/-- C6 (corrected): the rendered output carries no trailing whitespace on
every branch except the whole-comment one (non-empty comment with label,
instruction and operands all empty), which returns the comment text without
a final trim. -/
theorem claim_C6_corrected (line : Str) (cfg : FormatConfig)
    (h : ¬ ((parseLine line).comment ≠ [] ∧ (parseLine line).label = []
      ∧ (parseLine line).instruction = [] ∧ (parseLine line).operands = [])) :
    trimEnd (formatLine line cfg) = formatLine line cfg := by
  by_cases hb : trim line = []
  · rw [formatLine_blank hb]
    rfl
  · rw [formatLine_main cfg hb h, trimEnd_idem]

/-- C6 witness: the corrected statement instantiated at "mov r1,r2  ". -/
theorem claim_C6_witness :
    ¬ ((parseLine ("mov r1,r2  ").data).comment ≠ []
      ∧ (parseLine ("mov r1,r2  ").data).label = []
      ∧ (parseLine ("mov r1,r2  ").data).instruction = []
      ∧ (parseLine ("mov r1,r2  ").data).operands = [])
    ∧ trimEnd (formatLine ("mov r1,r2  ").data defaultConfig)
      = formatLine ("mov r1,r2  ").data defaultConfig :=
  ⟨by rw [parseLineE_eq]; decide,
   claim_C6_corrected _ defaultConfig (by rw [parseLineE_eq]; decide)⟩

/-- C7: no regression on unknown mnemonics: if the parsed instruction
token's uppercased form belongs to neither INSTRUCTIONS nor DIRECTIVES, the
rendered line contains the token byte-for-byte as written, under every
configuration. -/
theorem claim_C7 (line : Str) (cfg : FormatConfig)
    (h1 : (parseLine line).instruction ≠ [])
    (h2 : upper (parseLine line).instruction ∉ INSTRUCTIONS)
    (h3 : upper (parseLine line).instruction ∉ DIRECTIVES) :
    ∃ pre suf, formatLine line cfg
      = (pre ++ (parseLine line).instruction) ++ suf := by
  have hb : trim line ≠ [] := fun hb => h1 (by rw [parseLine_blank hb]; rfl)
  have hshape : ¬ ((parseLine line).comment ≠ [] ∧ (parseLine line).label = []
      ∧ (parseLine line).instruction = [] ∧ (parseLine line).operands = []) :=
    fun hc => h1 hc.2.2.1
  rw [formatLine_main cfg hb hshape]
  exact render_contains (parseLine line) cfg h1 (parseLine_inst_wsfree line)
    (by rw [caseInstruction, if_neg (by simp [h2]), if_neg (by simp [h3])])

/-- C7 witness: the unknown mnemonic "blah" of "foo blah r1,r2" survives
formatting verbatim. -/
theorem claim_C7_witness :
    (parseLine ("foo blah r1,r2").data).instruction ≠ []
    ∧ upper (parseLine ("foo blah r1,r2").data).instruction ∉ INSTRUCTIONS
    ∧ upper (parseLine ("foo blah r1,r2").data).instruction ∉ DIRECTIVES
    ∧ ∃ pre suf, formatLine ("foo blah r1,r2").data defaultConfig
        = (pre ++ (parseLine ("foo blah r1,r2").data).instruction) ++ suf :=
  ⟨by rw [parseLineE_eq]; decide,
   by rw [parseLineE_eq]; decide,
   by rw [parseLineE_eq]; decide,
   claim_C7 _ defaultConfig (by rw [parseLineE_eq]; decide)
     (by rw [parseLineE_eq]; decide) (by rw [parseLineE_eq]; decide)⟩

/-- C8: cancellation prefix safety: for every document, configuration and
cancellation point K with K ≤ line count, the driver returns exactly the
(index, formatted) pairs of the changed lines with indices in [0, K), in
increasing index order — the prefix an uncancelled run would produce, with
unchanged lines contributing no entry. -/
theorem claim_C8 (doc : List Str) (cfg : FormatConfig) (K : Nat)
    (h : K ≤ doc.length) :
    provideDocumentFormattingEdits doc cfg K = expectedEdits doc cfg K :=
  provideEdits_eq_expected doc cfg K h

/-- C8 witness: a three-line document cancelled after two lines. -/
theorem claim_C8_witness :
    2 ≤ ([("loop mov r1,r2 ;copy").data, ("   ").data, ("* c").data]
      : List Str).length
    ∧ provideDocumentFormattingEdits
        [("loop mov r1,r2 ;copy").data, ("   ").data, ("* c").data]
        defaultConfig 2
      = expectedEdits
        [("loop mov r1,r2 ;copy").data, ("   ").data, ("* c").data]
        defaultConfig 2 :=
  ⟨by decide, claim_C8 _ defaultConfig 2 (by decide)⟩

/-- C9: operandColumn noninterference: two configurations that agree on
every field except operandColumn format every line identically. -/
theorem claim_C9 (line : Str) (cfg1 cfg2 : FormatConfig)
    (h1 : cfg1.labelColumn = cfg2.labelColumn)
    (h2 : cfg1.instructionColumn = cfg2.instructionColumn)
    (h3 : cfg1.commentColumn = cfg2.commentColumn)
    (h4 : cfg1.uppercaseInstructions = cfg2.uppercaseInstructions)
    (h5 : cfg1.uppercaseDirectives = cfg2.uppercaseDirectives)
    (h6 : cfg1.spaceAfterComma = cfg2.spaceAfterComma) :
    formatLine line cfg1 = formatLine line cfg2 := by
  obtain ⟨a1, b1, c1, d1, e1, f1, g1⟩ := cfg1
  obtain ⟨a2, b2, c2, d2, e2, f2, g2⟩ := cfg2
  dsimp only at h1 h2 h3 h4 h5 h6
  subst h1
  subst h2
  subst h3
  subst h4
  subst h5
  subst h6
  rfl

/-- C9 witness: changing operandColumn from 18 to 99 leaves the rendering of
"loop mov r1,r2 ;copy" unchanged. -/
theorem claim_C9_witness :
    (FormatConfig.mk 0 9 18 40 true true true).labelColumn
        = (FormatConfig.mk 0 9 99 40 true true true).labelColumn
    ∧ (FormatConfig.mk 0 9 18 40 true true true).instructionColumn
        = (FormatConfig.mk 0 9 99 40 true true true).instructionColumn
    ∧ (FormatConfig.mk 0 9 18 40 true true true).commentColumn
        = (FormatConfig.mk 0 9 99 40 true true true).commentColumn
    ∧ (FormatConfig.mk 0 9 18 40 true true true).uppercaseInstructions
        = (FormatConfig.mk 0 9 99 40 true true true).uppercaseInstructions
    ∧ (FormatConfig.mk 0 9 18 40 true true true).uppercaseDirectives
        = (FormatConfig.mk 0 9 99 40 true true true).uppercaseDirectives
    ∧ (FormatConfig.mk 0 9 18 40 true true true).spaceAfterComma
        = (FormatConfig.mk 0 9 99 40 true true true).spaceAfterComma
    ∧ formatLine ("loop mov r1,r2 ;copy").data
        (FormatConfig.mk 0 9 18 40 true true true)
      = formatLine ("loop mov r1,r2 ;copy").data
        (FormatConfig.mk 0 9 99 40 true true true) :=
  ⟨rfl, rfl, rfl, rfl, rfl, rfl,
   claim_C9 _ _ _ rfl rfl rfl rfl rfl rfl⟩

/-- C10: implicit parser invariant: a non-empty parsed label is never a
recognized instruction or directive after uppercasing, and never begins
with '.'. -/
theorem claim_C10 (line : Str)
    (h : (parseLine line).label ≠ []) :
    upper (parseLine line).label ∉ INSTRUCTIONS
    ∧ upper (parseLine line).label ∉ DIRECTIVES
    ∧ (parseLine line).label.head? ≠ some '.' := by
  have htok := (parseLine_label_tok line).resolve_left h
  rw [isInstOrDirTok] at htok
  simp only [Bool.or_eq_false_iff, decide_eq_false_iff_not] at htok
  obtain ⟨⟨hI, hD⟩, hdot⟩ := htok
  refine ⟨hI, hD, ?_⟩
  intro hh
  apply hdot
  rw [upper, List.head?_map, hh]
  decide

/-- C10 witness: the label "loop" of "loop mov r1,r2 ;copy" is in neither
vocabulary set and does not start with '.'. -/
theorem claim_C10_witness :
    (parseLine ("loop mov r1,r2 ;copy").data).label ≠ []
    ∧ upper (parseLine ("loop mov r1,r2 ;copy").data).label ∉ INSTRUCTIONS
    ∧ upper (parseLine ("loop mov r1,r2 ;copy").data).label ∉ DIRECTIVES
    ∧ (parseLine ("loop mov r1,r2 ;copy").data).label.head? ≠ some '.' :=
  ⟨by rw [parseLineE_eq]; decide,
   claim_C10 _ (by rw [parseLineE_eq]; decide)⟩

end TMS
